import Mathlib

/-!
Shallow embedding of the translaas-sdk-js multi-tier translation cache:
`MemoryCacheProvider` (packages/@translaas/caching/src/MemoryCacheProvider.ts),
`FileCacheProvider`, `BrowserCacheProvider` and `HybridCacheProvider`
(packages/@translaas/caching-file/src/*.ts), together with the pieces of
`@translaas/models` they use (`TranslationProject`, `TranslationGroup`,
`TranslaasOfflineCacheException`).

Modelling conventions:
* JavaScript `Map` objects, JSON objects used as dictionaries, and
  `localStorage` are modelled as association lists with unique keys
  (`AList`); insertion order is preserved exactly as a JS `Map` does.
* `Date.now()` timestamps and millisecond durations are `Int` (JS numbers
  used integrally by this code); every function that calls `Date.now()`
  takes the current time as an explicit `now : Int` argument.
* `async` methods become pure functions; a method that can mutate its
  receiver or the environment returns the new state together with an
  `Except` outcome, where `.error` models a thrown
  `TranslaasOfflineCacheException` and the state component of the pair is
  the state at the moment the exception propagates.
* `AbortSignal` cancellation tokens are modelled by the boolean
  `aborted : Bool` that the code reads (`cancellationToken?.aborted`).
-/

namespace Translaas

/-- Model of a caught JavaScript `Error` (only the fields this code reads). -/
structure JsError where
  name : String
  message : String
deriving DecidableEq, Repr

/-- Model of `TranslaasOfflineCacheException` from `@translaas/models`
(`errors.d.ts`): a message plus optional cache directory, project, language
and inner-error context. -/
structure OfflineCacheError where
  message : String
  cacheDirectory : Option String := none
  project : Option String := none
  language : Option String := none
  innerError : Option JsError := none
deriving DecidableEq, Repr

instance {ε α : Type} [DecidableEq ε] [DecidableEq α] :
    DecidableEq (Except ε α) := fun x y =>
  match x, y with
  | .ok a, .ok b =>
      if h : a = b then .isTrue (by rw [h])
      else .isFalse (fun hh => h (Except.ok.inj hh))
  | .error a, .error b =>
      if h : a = b then .isTrue (by rw [h])
      else .isFalse (fun hh => h (Except.error.inj hh))
  | .ok _, .error _ => .isFalse (fun hh => Except.noConfusion hh)
  | .error _, .ok _ => .isFalse (fun hh => Except.noConfusion hh)

/-- The exception every provider throws when the supplied cancellation
signal is already aborted: `new TranslaasOfflineCacheException('Operation
cancelled', dir?, project?, lang?)`. -/
def cancelledError (dir project lang : Option String) : OfflineCacheError :=
  { message := "Operation cancelled", cacheDirectory := dir,
    project := project, language := lang }

/-! ### Association-list maps

JS `Map` / JSON-object dictionaries, keyed by an arbitrary decidable type.
`alSet` mirrors `Map.prototype.set` (update in place, else append),
`alDelete` mirrors `Map.prototype.delete`. -/

/-- A JS `Map`/object dictionary as an association list. -/
abbrev AList (κ α : Type) := List (κ × α)

/-- `Map.prototype.get` / object index read. -/
def alGet [DecidableEq κ] : AList κ α → κ → Option α
  | [], _ => none
  | (k, v) :: rest, key => if k = key then some v else alGet rest key

/-- `Map.prototype.set` / object index write: replace in place, else append. -/
def alSet [DecidableEq κ] : AList κ α → κ → α → AList κ α
  | [], key, v => [(key, v)]
  | (k, w) :: rest, key, v =>
      if k = key then (key, v) :: rest else (k, w) :: alSet rest key v

/-- `Map.prototype.delete` (with unique keys, removing the first match is
removing the only match). -/
def alDelete [DecidableEq κ] : AList κ α → κ → AList κ α
  | [], _ => []
  | (k, w) :: rest, key =>
      if k = key then rest else (k, w) :: alDelete rest key

/-- The keys of a map, in insertion order. -/
def alKeys (l : AList κ α) : List κ := l.map Prod.fst

/-! ### `@translaas/models`: translation payload types -/

/-- `TranslationEntryValue = string | Record<PluralCategory, string>`. -/
inductive TranslationEntryValue
  | str (value : String)
  | plural (forms : AList String String)
deriving DecidableEq, Repr

/-- `Record<string, Record<string, TranslationEntryValue>>`: the nested
group → entry → value dictionary of a project. -/
abbrev GroupsData := AList String (AList String TranslationEntryValue)

/-- `TranslationGroup` (entries of one group). -/
structure TranslationGroup where
  entries : AList String TranslationEntryValue
deriving DecidableEq, Repr

/-- `TranslationProject`: wraps the `groups` dictionary. -/
structure TranslationProject where
  groups : GroupsData
deriving DecidableEq, Repr

/-- `TranslationProject.getGroup`: `null` when the group is absent
(a present group object, even empty, is truthy). -/
def TranslationProject.getGroup (p : TranslationProject) (groupName : String) :
    Option TranslationGroup :=
  (alGet p.groups groupName).map TranslationGroup.mk

/-! ### `MemoryCacheProvider` (`@translaas/caching`) -/

/-- Internal `CacheEntry<T>` of `MemoryCacheProvider`. -/
structure MemEntry (V : Type) where
  value : V
  expiresAt : Option Int
  lastAccessed : Int
  slidingExpirationMs : Option Int
deriving DecidableEq, Repr

/-- The `Map`-backed store of a `MemoryCacheProvider`. -/
abbrev MemCache (V : Type) := AList String (MemEntry V)

namespace MemoryCacheProvider

/-- `MemoryCacheProvider.isExpired`: absolute deadline passed, or sliding
window (0 ⇒ immediately) elapsed since `lastAccessed`. -/
def isExpired (entry : MemEntry V) (now : Int) : Bool :=
  (match entry.expiresAt with
    | some e => decide (now ≥ e)
    | none => false) ||
  (match entry.slidingExpirationMs with
    | some s => s == 0 || decide (now - entry.lastAccessed ≥ s)
    | none => false)

/-- `MemoryCacheProvider.set`: builds the entry
(`absoluteExpiration > 0 ? now + absoluteExpiration : absoluteExpiration
=== 0 ? now : null`, and likewise for the sliding window) and stores it,
unconditionally replacing any existing entry for the key. -/
def set (c : MemCache V) (key : String) (value : V)
    (absoluteExpiration slidingExpiration : Option Int) (now : Int) :
    MemCache V :=
  let entry : MemEntry V :=
    { value := value
      expiresAt :=
        match absoluteExpiration with
        | some a => if a > 0 then some (now + a) else if a = 0 then some now else none
        | none => none
      lastAccessed := now
      slidingExpirationMs :=
        match slidingExpiration with
        | some s => if s > 0 then some s else if s = 0 then some 0 else none
        | none => none }
  alSet c key entry

/-- `MemoryCacheProvider.get`: miss on absent key; an expired entry is
deleted and a miss returned; a live entry has its `lastAccessed` bumped to
`now` and its value returned. The pair is (returned value, cache after the
call). -/
def get (c : MemCache V) (key : String) (now : Int) :
    Option V × MemCache V :=
  match alGet c key with
  | none => (none, c)
  | some entry =>
      if isExpired entry now then
        (none, alDelete c key)
      else
        (some entry.value, alSet c key { entry with lastAccessed := now })

/-- `MemoryCacheProvider.remove`. -/
def remove (c : MemCache V) (key : String) : MemCache V := alDelete c key

/-- `MemoryCacheProvider.clear`. -/
def clear (_c : MemCache V) : MemCache V := []

end MemoryCacheProvider

/-! ### `FileCacheProvider` (`@translaas/caching-file`)

The filesystem is a map from paths to file contents. A path is the list of
`join` segments (so no separator games; `pathString` renders it for error
messages). A stored file either holds well-formed JSON of one of the two
shapes this provider ever reads — a manifest or a groups dictionary — or is
malformed (fails `JSON.parse`). -/

/-- The `CacheManifest` interface of `FileCacheProvider.ts`. -/
structure CacheManifest where
  project : String
  lang : String
  cachedAt : Int
  expiresAt : Option Int := none
deriving DecidableEq, Repr

/-- A filesystem path as its `join` segments. -/
abbrev FilePath' := List String

/-- Rendering of a path for exception messages (POSIX separator). -/
def pathString (p : FilePath') : String := String.intercalate "/" p

/-- A well-formed JSON document of one of the shapes this provider reads.
An untyped `JSON.parse(...) as T` cast never fails in the source, so a
document of the other shape decodes coarsely (see `castManifest`,
`castGroups`); no claim exercises that corner. -/
inductive JsonValue
  | manifestVal (m : CacheManifest)
  | groupsVal (g : GroupsData)
deriving DecidableEq, Repr

/-- Content of a file on disk. -/
inductive FileContent
  | validJson (v : JsonValue)
  | malformed
deriving DecidableEq, Repr

/-- The filesystem. -/
abbrev FileSystem := AList FilePath' FileContent

/-- `fs.rename(src, dst)` for a `src` the code just wrote. -/
def fsRename (fs : FileSystem) (src dst : FilePath') : FileSystem :=
  match alGet fs src with
  | some c => alSet (alDelete fs src) dst c
  | none => fs

/-- `JSON.parse(...) as CacheManifest`: the cast is unchecked; a groups
document yields an object whose manifest fields are all `undefined` (the
code only ever reads `expiresAt` from it, which is then absent). -/
def castManifest : JsonValue → CacheManifest
  | .manifestVal m => m
  | .groupsVal _ => { project := "", lang := "", cachedAt := 0 }

/-- `JSON.parse(...) as Record<string, Record<string, ...>>`: the cast is
unchecked; a manifest document yields an object none of whose values are
group dictionaries — modelled coarsely as an empty dictionary (no claim
reads groups out of such a cast). -/
def castGroups : JsonValue → GroupsData
  | .groupsVal g => g
  | .manifestVal _ => []

namespace FileCacheProvider

/-- `getProjectCacheDir`: `join(this.cacheDir, project, lang)`. -/
def getProjectCacheDir (cacheDir project lang : String) : FilePath' :=
  [cacheDir, project, lang]

/-- `getProjectCacheFile`: `join(dir, 'project.json')`. -/
def getProjectCacheFile (cacheDir project lang : String) : FilePath' :=
  getProjectCacheDir cacheDir project lang ++ ["project.json"]

/-- `getManifestFile`: `join(dir, 'manifest.json')`. -/
def getManifestFile (cacheDir project lang : String) : FilePath' :=
  getProjectCacheDir cacheDir project lang ++ ["manifest.json"]

/-- The staging path `` `${path}.tmp` ``. -/
def tmpPath (p : FilePath') : FilePath' :=
  p.dropLast ++ [(p.getLastD "") ++ ".tmp"]

/-- `readJsonFile`: `null` when the file is absent (`ENOENT`); a thrown,
wrapped `TranslaasOfflineCacheException` when it exists but fails to parse
(the `JSON.parse` `SyntaxError` becomes the inner error); otherwise the
parsed document. -/
def readJsonFile (fs : FileSystem) (filePath : FilePath') (cacheDir : String) :
    Except OfflineCacheError (Option JsonValue) :=
  match alGet fs filePath with
  | none => .ok none
  | some (.validJson v) => .ok (some v)
  | some .malformed =>
      .error { message := "Failed to read cache file: " ++ pathString filePath,
               cacheDirectory := some cacheDir,
               innerError := some ⟨"SyntaxError", "Unexpected token"⟩ }

/-- `FileCacheProvider.isExpired`: a missing manifest is expired; otherwise
expired iff `expiresAt` is truthy (present and nonzero) and `now` has
reached it. -/
def isExpired (manifest : Option CacheManifest) (now : Int) : Bool :=
  match manifest with
  | none => true
  | some m =>
      match m.expiresAt with
      | some e => e ≠ 0 && decide (now ≥ e)
      | none => false

/-- `FileCacheProvider.getProjectAsync`: cancellation check; read manifest
(miss when absent, falsy or expired — the payload is then never read);
then read the payload (miss when absent — `readJsonFile` maps `ENOENT` to
`null`; raise when malformed). -/
def getProjectAsync (cacheDir : String) (fs : FileSystem)
    (project lang : String) (now : Int) (aborted : Bool) :
    Except OfflineCacheError (Option TranslationProject) :=
  if aborted then
    .error (cancelledError (some cacheDir) (some project) (some lang))
  else
    match readJsonFile fs (getManifestFile cacheDir project lang) cacheDir with
    | .error e => .error e
    | .ok none => .ok none
    | .ok (some mv) =>
        let manifest := castManifest mv
        if isExpired (some manifest) now then .ok none
        else
          match readJsonFile fs (getProjectCacheFile cacheDir project lang) cacheDir with
          | .error e => .error e
          | .ok none => .ok none
          | .ok (some pv) => .ok (some ⟨castGroups pv⟩)

/-- `FileCacheProvider.getGroupAsync`: delegates to `getProjectAsync`,
then extracts the group. -/
def getGroupAsync (cacheDir : String) (fs : FileSystem)
    (project group lang : String) (now : Int) (aborted : Bool) :
    Except OfflineCacheError (Option TranslationGroup) :=
  match getProjectAsync cacheDir fs project lang now aborted with
  | .error e => .error e
  | .ok none => .ok none
  | .ok (some p) => .ok (p.getGroup group)

/-- `FileCacheProvider.saveProjectAsync`: cancellation check, `mkdir -p`
(implicit in the path-keyed filesystem model), write both temp files, then
rename payload first and manifest second. Filesystem writes themselves do
not fail in this model, so the wrap-and-cleanup catch branch is
unreachable here. The manifest written is
`{project, lang, cachedAt: Date.now()}` — no `expiresAt`. -/
def saveProjectAsync (cacheDir : String) (fs : FileSystem)
    (project lang : String) (data : TranslationProject) (now : Int)
    (aborted : Bool) : FileSystem × Except OfflineCacheError Unit :=
  if aborted then
    (fs, .error (cancelledError (some cacheDir) (some project) (some lang)))
  else
    let projectPath := getProjectCacheFile cacheDir project lang
    let manifestPath := getManifestFile cacheDir project lang
    let tempProjectPath := tmpPath projectPath
    let tempManifestPath := tmpPath manifestPath
    let manifest : CacheManifest := { project := project, lang := lang, cachedAt := now }
    let fs1 := alSet fs tempProjectPath (.validJson (.groupsVal data.groups))
    let fs2 := alSet fs1 tempManifestPath (.validJson (.manifestVal manifest))
    let fs3 := fsRename fs2 tempProjectPath projectPath
    let fs4 := fsRename fs3 tempManifestPath manifestPath
    (fs4, .ok ())

/-- `FileCacheProvider.isCachedAsync`: cancellation check; inside a
catch-all `try`, `fs.access` both files (absence ⇒ `false`), read the
manifest (a read failure is caught ⇒ `false`) and report non-expiry. -/
def isCachedAsync (cacheDir : String) (fs : FileSystem)
    (project lang : String) (now : Int) (aborted : Bool) :
    Except OfflineCacheError Bool :=
  if aborted then
    .error (cancelledError (some cacheDir) (some project) (some lang))
  else
    .ok (match alGet fs (getManifestFile cacheDir project lang),
               alGet fs (getProjectCacheFile cacheDir project lang) with
      | some _, some _ =>
          match readJsonFile fs (getManifestFile cacheDir project lang) cacheDir with
          | .ok (some mv) => !isExpired (some (castManifest mv)) now
          | .ok none => false
          | .error _ => false
      | _, _ => false)

/-- `FileCacheProvider.clearAllAsync`: cancellation check; `fs.rm` of the
cache root, recursive and forced — every path under `cacheDir` is removed
and a missing root is not an error. -/
def clearAllAsync (cacheDir : String) (fs : FileSystem) (aborted : Bool) :
    FileSystem × Except OfflineCacheError Unit :=
  if aborted then
    (fs, .error (cancelledError (some cacheDir) none none))
  else
    (fs.filter (fun e => !(e.1.head? == some cacheDir)), .ok ())

end FileCacheProvider

/-! ### `BrowserCacheProvider` (`@translaas/caching-file`)

`localStorage` is a map from string keys to stored blobs. The environment
also records whether `getWindow()` finds a working `localStorage`
(`isLocalStorageAvailable`'s sentinel write-then-delete probe, which
leaves the store unchanged when it succeeds) and whether the next
`setItem` throws (quota exhaustion or other storage failure). -/

/-- The `CacheEntry` blob shape of `BrowserCacheProvider.ts` as it comes
back from an untyped `JSON.parse` cast: every field may be absent.
(`data` is either absent or a groups object; a non-object `data` value is
not modelled — no claim exercises it.) -/
structure StoredEntry where
  project : Option String := none
  lang : Option String := none
  data : Option GroupsData := none
  cachedAt : Option Int := none
  expiresAt : Option Int := none
deriving DecidableEq, Repr

/-- A raw `localStorage` value: a blob that parses to a `StoredEntry`, or
bytes on which `JSON.parse` throws. -/
inductive RawValue
  | validEntry (e : StoredEntry)
  | malformed
deriving DecidableEq, Repr

/-- The browser environment: availability probe outcome, the store, and
whether `localStorage.setItem` currently throws. -/
structure BrowserEnv where
  available : Bool
  store : AList String RawValue
  setFailure : Option JsError := none
deriving DecidableEq, Repr

/-- JS truthiness of an optional string field (`undefined` and `''` are
falsy). -/
def truthyStr : Option String → Bool
  | none => false
  | some s => s ≠ ""

/-- Whether `pat` is an initial run of `s` (on character lists). -/
def leadMatches : List Char → List Char → Bool
  | [], _ => true
  | _ :: _, [] => false
  | x :: xs, y :: ys => x == y && leadMatches xs ys

/-- Whether `pat` occurs contiguously in `s` (on character lists). -/
def charsInclude (pat : List Char) : List Char → Bool
  | [] => leadMatches pat []
  | y :: ys => leadMatches pat (y :: ys) || charsInclude pat ys

/-- `String.prototype.includes`: substring occurrence test. -/
def strIncludes (s pat : String) : Bool := charsInclude pat.data s.data

/-- `String.prototype.toLowerCase` (character-wise lowering). -/
def strToLower (s : String) : String := ⟨s.data.map Char.toLower⟩

namespace BrowserCacheProvider

/-- The fixed `keyPrefix`. -/
def keyPrefix : String := "translaas:cache:"

/-- `getStorageKey`: `` `${this.keyPrefix}${project}:${lang}` ``. -/
def getStorageKey (project lang : String) : String :=
  keyPrefix ++ project ++ ":" ++ lang

/-- `BrowserCacheProvider.isExpired`: a missing entry is expired;
otherwise expired iff `expiresAt` is truthy (present and nonzero) and
`now` has reached it. -/
def isExpired (entry : Option StoredEntry) (now : Int) : Bool :=
  match entry with
  | none => true
  | some e =>
      match e.expiresAt with
      | some x => x ≠ 0 && decide (now ≥ x)
      | none => false

/-- `BrowserCacheProvider.getProjectAsync`: cancellation check, then the
availability probe (throwing when it fails); a missing key is a miss; a
blob that fails `JSON.parse` is removed and reported as a miss; a parsed
entry missing a truthy `data`/`project`/`lang` is a miss (left in place);
an expired entry is removed and a miss; otherwise the data is returned. -/
def getProjectAsync (env : BrowserEnv) (project lang : String) (now : Int)
    (aborted : Bool) :
    BrowserEnv × Except OfflineCacheError (Option TranslationProject) :=
  if aborted then
    (env, .error (cancelledError none (some project) (some lang)))
  else if !env.available then
    (env, .error { message := "localStorage is not available in this environment",
                   project := some project, language := some lang })
  else
    let key := getStorageKey project lang
    match alGet env.store key with
    | none => (env, .ok none)
    | some .malformed =>
        ({ env with store := alDelete env.store key }, .ok none)
    | some (.validEntry e) =>
        if !(e.data.isSome && truthyStr e.project && truthyStr e.lang) then
          (env, .ok none)
        else if isExpired (some e) now then
          ({ env with store := alDelete env.store key }, .ok none)
        else
          (env, .ok (some ⟨e.data.getD []⟩))

/-- `BrowserCacheProvider.getGroupAsync`: delegates to `getProjectAsync`,
then extracts the group. -/
def getGroupAsync (env : BrowserEnv) (project group lang : String)
    (now : Int) (aborted : Bool) :
    BrowserEnv × Except OfflineCacheError (Option TranslationGroup) :=
  match getProjectAsync env project lang now aborted with
  | (env', .error e) => (env', .error e)
  | (env', .ok none) => (env', .ok none)
  | (env', .ok (some p)) => (env', .ok (p.getGroup group))

/-- `isQuotaError` classification from `saveProjectAsync`'s catch block:
known quota error names, or a truthy message whose lowercase form contains
`'quota'`. -/
def isQuotaError (err : JsError) : Bool :=
  err.name == "QuotaExceededError" ||
  err.name == "NS_ERROR_DOM_QUOTA_REACHED" ||
  (err.message ≠ "" && strIncludes (strToLower err.message) "quota")

/-- `BrowserCacheProvider.saveProjectAsync`: cancellation check,
availability probe (throwing when it fails), then
`localStorage.setItem(key, JSON.stringify({project, lang, data,
cachedAt}))` — no `expiresAt`. A throwing write is classified: quota-style
errors surface with a message naming the project and language, any other
failure with a message naming the storage key; both wrap the thrown error
as the inner cause. -/
def saveProjectAsync (env : BrowserEnv) (project lang : String)
    (data : TranslationProject) (now : Int) (aborted : Bool) :
    BrowserEnv × Except OfflineCacheError Unit :=
  if aborted then
    (env, .error (cancelledError none (some project) (some lang)))
  else if !env.available then
    (env, .error { message := "localStorage is not available in this environment",
                   project := some project, language := some lang })
  else
    let key := getStorageKey project lang
    let entry : StoredEntry :=
      { project := some project, lang := some lang,
        data := some data.groups, cachedAt := some now }
    match env.setFailure with
    | none => ({ env with store := alSet env.store key (.validEntry entry) }, .ok ())
    | some err =>
        if isQuotaError err then
          (env, .error { message := "Storage quota exceeded. Cannot cache project: "
                           ++ project ++ ", language: " ++ lang,
                         project := some project, language := some lang,
                         innerError := some err })
        else
          (env, .error { message := "Failed to save cache entry: " ++ key,
                         project := some project, language := some lang,
                         innerError := some err })

/-- `BrowserCacheProvider.isCachedAsync`: cancellation check; when the
availability probe fails it returns `false` (unlike the other operations,
which throw); a missing or non-parsing blob is `false`; otherwise reports
non-expiry (no shape validation here). -/
def isCachedAsync (env : BrowserEnv) (project lang : String) (now : Int)
    (aborted : Bool) : BrowserEnv × Except OfflineCacheError Bool :=
  if aborted then
    (env, .error (cancelledError none (some project) (some lang)))
  else if !env.available then
    (env, .ok false)
  else
    match alGet env.store (getStorageKey project lang) with
    | none => (env, .ok false)
    | some .malformed => (env, .ok false)
    | some (.validEntry e) => (env, .ok (!isExpired (some e) now))

/-- `BrowserCacheProvider.clearAllAsync`: cancellation check, availability
probe (throwing when it fails), then removal of exactly the keys starting
with the fixed prefix. -/
def clearAllAsync (env : BrowserEnv) (aborted : Bool) :
    BrowserEnv × Except OfflineCacheError Unit :=
  if aborted then
    (env, .error (cancelledError none none none))
  else if !env.available then
    (env, .error { message := "localStorage is not available in this environment" })
  else
    ({ env with store := env.store.filter (fun kv => !kv.1.startsWith keyPrefix) },
     .ok ())

end BrowserCacheProvider

/-! ### `HybridCacheProvider` (`@translaas/caching-file`)

The hybrid provider owns an L1 `MemoryCacheProvider` and a parallel LRU
index (`lruEntries : Map<string, LRUEntry>`); the L2 provider is abstract
behind `IOfflineCacheProvider`, so every hybrid operation takes the
outcome of the L2 call it performs as an explicit oracle argument. -/

/-- The `LRUEntry` interface of `HybridCacheProvider.ts`. -/
structure LRUEntry where
  key : String
  lastAccessed : Int
deriving DecidableEq, Repr

/-- `HybridCacheOptions` from `@translaas/models` (numeric fields used
with nonnegative values; `maxMemoryCacheEntries` is a count). -/
structure HybridCacheOptions where
  enabled : Bool
  memoryCacheExpiration : Option Int := none
  maxMemoryCacheEntries : Option Nat := none
  warmupOnStartup : Option Bool := none
deriving DecidableEq, Repr

/-- The mutable state of a `HybridCacheProvider`: the L1 memory cache and
the LRU index. -/
structure HybridState where
  l1 : MemCache TranslationProject
  lru : AList String LRUEntry
deriving DecidableEq, Repr

/-- One `(project, language)` unit of `warmupAsync` work: the pair, the
time its `.then` callback runs, and the outcome of its L2 lookup. -/
structure WarmupItem where
  project : String
  lang : String
  time : Int
  l2Result : Except OfflineCacheError (Option TranslationProject)

namespace HybridCacheProvider

/-- `maxEntries = options.maxMemoryCacheEntries ?? 1000`. -/
def maxEntriesOf (options : HybridCacheOptions) : Nat :=
  options.maxMemoryCacheEntries.getD 1000

/-- `getCacheKey`: `` `${project}:${lang}` ``. -/
def getCacheKey (project lang : String) : String := project ++ ":" ++ lang

/-- `updateLRU`: `lruEntries.set(key, {key, lastAccessed: Date.now()})`. -/
def updateLRU (lru : AList String LRUEntry) (key : String) (now : Int) :
    AList String LRUEntry :=
  alSet lru key ⟨key, now⟩

/-- The stable ascending insertion of one entry, by `lastAccessed`
(ties keep the earlier element first, as JS's stable `Array.sort` with the
comparator `a.lastAccessed - b.lastAccessed` does). -/
def insertByAccess (e : LRUEntry) : List LRUEntry → List LRUEntry
  | [] => [e]
  | x :: xs =>
      if x.lastAccessed ≤ e.lastAccessed then x :: insertByAccess e xs
      else e :: x :: xs

/-- Stable sort of the LRU entries by ascending `lastAccessed`
(`Array.from(map.values()).sort((a, b) => a.lastAccessed -
b.lastAccessed)`). -/
def sortByAccess : List LRUEntry → List LRUEntry
  | [] => []
  | x :: xs => insertByAccess x (sortByAccess xs)

/-- The body of `evictLRU`'s removal loop: remove one evictee from both
the L1 cache and the LRU index. -/
def evictStep (s : HybridState) (e : LRUEntry) : HybridState :=
  ⟨alDelete s.l1 e.key, alDelete s.lru e.key⟩

/-- `evictLRU`: nothing to do while `lruEntries.size < maxEntries`;
otherwise sort all tracked entries by `lastAccessed` (oldest first), take
the first `size - maxEntries + 1` (`Array.slice`), and remove each from
both the L1 cache and the LRU index. -/
def evictLRU (st : HybridState) (maxEntries : Nat) : HybridState :=
  if st.lru.length < maxEntries then st
  else
    let sortedEntries := sortByAccess (st.lru.map Prod.snd)
    let entriesToRemove := sortedEntries.take (sortedEntries.length - maxEntries + 1)
    entriesToRemove.foldl evictStep st

/-- `promoteToL1`: evict if the index has reached `maxEntries`, then
insert into L1 with the configured expiration and record the LRU entry. -/
def promoteToL1 (st : HybridState) (options : HybridCacheOptions)
    (project lang : String) (data : TranslationProject) (now : Int) :
    HybridState :=
  let key := getCacheKey project lang
  let st1 := if st.lru.length ≥ maxEntriesOf options then
               evictLRU st (maxEntriesOf options)
             else st
  ⟨MemoryCacheProvider.set st1.l1 key data options.memoryCacheExpiration none now,
   updateLRU st1.lru key now⟩

/-- `HybridCacheProvider.getProjectAsync`: cancellation check; L1 lookup
(which may itself delete an expired entry); on a hit, touch the LRU record
and return; on a miss, use the L2 outcome: a hit is promoted to L1, an L2
exception propagates, a double miss returns `null`. -/
def getProjectAsync (st : HybridState) (options : HybridCacheOptions)
    (project lang : String)
    (l2Result : Except OfflineCacheError (Option TranslationProject))
    (now : Int) (aborted : Bool) :
    HybridState × Except OfflineCacheError (Option TranslationProject) :=
  if aborted then
    (st, .error (cancelledError none (some project) (some lang)))
  else
    let key := getCacheKey project lang
    match MemoryCacheProvider.get st.l1 key now with
    | (some v, l1') => (⟨l1', updateLRU st.lru key now⟩, .ok (some v))
    | (none, l1') =>
        match l2Result with
        | .error e => (⟨l1', st.lru⟩, .error e)
        | .ok (some v) =>
            (promoteToL1 ⟨l1', st.lru⟩ options project lang v now, .ok (some v))
        | .ok none => (⟨l1', st.lru⟩, .ok none)

/-- `HybridCacheProvider.getGroupAsync`: delegates to `getProjectAsync`,
then extracts the group. -/
def getGroupAsync (st : HybridState) (options : HybridCacheOptions)
    (project group lang : String)
    (l2Result : Except OfflineCacheError (Option TranslationProject))
    (now : Int) (aborted : Bool) :
    HybridState × Except OfflineCacheError (Option TranslationGroup) :=
  match getProjectAsync st options project lang l2Result now aborted with
  | (st', .error e) => (st', .error e)
  | (st', .ok none) => (st', .ok none)
  | (st', .ok (some p)) => (st', .ok (p.getGroup group))

/-- `HybridCacheProvider.saveProjectAsync`: cancellation check; save to L2
first (an L2 exception propagates with L1 untouched); then evict if at
capacity, insert into L1 and refresh the LRU record. -/
def saveProjectAsync (st : HybridState) (options : HybridCacheOptions)
    (project lang : String) (data : TranslationProject)
    (l2Result : Except OfflineCacheError Unit) (now : Int) (aborted : Bool) :
    HybridState × Except OfflineCacheError Unit :=
  if aborted then
    (st, .error (cancelledError none (some project) (some lang)))
  else
    let key := getCacheKey project lang
    match l2Result with
    | .error e => (st, .error e)
    | .ok () =>
        let st1 := if st.lru.length ≥ maxEntriesOf options then
                     evictLRU st (maxEntriesOf options)
                   else st
        (⟨MemoryCacheProvider.set st1.l1 key data options.memoryCacheExpiration none now,
          updateLRU st1.lru key now⟩, .ok ())

/-- `HybridCacheProvider.isCachedAsync`: cancellation check; an L1 lookup
(whose lazy-expiry mutation of L1 is kept, and which does not touch the
LRU index); `true` on a hit, otherwise the L2 answer. -/
def isCachedAsync (st : HybridState) (project lang : String)
    (l2Result : Except OfflineCacheError Bool) (now : Int) (aborted : Bool) :
    HybridState × Except OfflineCacheError Bool :=
  if aborted then
    (st, .error (cancelledError none (some project) (some lang)))
  else
    match MemoryCacheProvider.get st.l1 (getCacheKey project lang) now with
    | (some _, l1') => (⟨l1', st.lru⟩, .ok true)
    | (none, l1') => (⟨l1', st.lru⟩, l2Result)

/-- `HybridCacheProvider.clearAllAsync`: cancellation check; clear L1 and
the LRU index eagerly, then the L2 outcome decides the result (an L2
exception propagates after L1 is already cleared). -/
def clearAllAsync (st : HybridState)
    (l2Result : Except OfflineCacheError Unit) (aborted : Bool) :
    HybridState × Except OfflineCacheError Unit :=
  if aborted then
    (st, .error (cancelledError none none none))
  else
    match l2Result with
    | .error e => (⟨[], []⟩, .error e)
    | .ok () => (⟨[], []⟩, .ok ())

/-- `HybridCacheProvider.warmupAsync`: cancellation check; every
`(project, language)` pair independently asks L2 and, on a hit, promotes
into L1; per-pair failures are caught (logged) and skipped. The
event-loop interleaving of the `.then` callbacks is the order of `items`. -/
def warmupAsync (st : HybridState) (options : HybridCacheOptions)
    (items : List WarmupItem) (aborted : Bool) :
    HybridState × Except OfflineCacheError Unit :=
  if aborted then
    (st, .error (cancelledError none none none))
  else
    (items.foldl
      (fun s it =>
        match it.l2Result with
        | .ok (some v) => promoteToL1 s options it.project it.lang v it.time
        | _ => s) st, .ok ())

/-- One public `HybridCacheProvider` call together with the outcome of the
L2 sub-call it makes, for reasoning about arbitrary operation sequences. -/
inductive Op
  | getProject (project lang : String)
      (l2 : Except OfflineCacheError (Option TranslationProject))
      (now : Int) (aborted : Bool)
  | getGroup (project group lang : String)
      (l2 : Except OfflineCacheError (Option TranslationProject))
      (now : Int) (aborted : Bool)
  | saveProject (project lang : String) (data : TranslationProject)
      (l2 : Except OfflineCacheError Unit) (now : Int) (aborted : Bool)
  | isCached (project lang : String) (l2 : Except OfflineCacheError Bool)
      (now : Int) (aborted : Bool)
  | clearAll (l2 : Except OfflineCacheError Unit) (aborted : Bool)
  | warmup (items : List WarmupItem) (aborted : Bool)

/-- The state reached after one public call. -/
def applyOp (options : HybridCacheOptions) (st : HybridState) : Op → HybridState
  | .getProject project lang l2 now aborted =>
      (getProjectAsync st options project lang l2 now aborted).1
  | .getGroup project group lang l2 now aborted =>
      (getGroupAsync st options project group lang l2 now aborted).1
  | .saveProject project lang data l2 now aborted =>
      (saveProjectAsync st options project lang data l2 now aborted).1
  | .isCached project lang l2 now aborted =>
      (isCachedAsync st project lang l2 now aborted).1
  | .clearAll l2 aborted => (clearAllAsync st l2 aborted).1
  | .warmup items aborted => (warmupAsync st options items aborted).1

/-- The state of a freshly constructed provider: empty L1, empty LRU
index. -/
def initialState : HybridState := ⟨[], []⟩

/-- The state after an arbitrary sequence of public calls on a fresh
provider. -/
def runOps (options : HybridCacheOptions) (ops : List Op) : HybridState :=
  ops.foldl (applyOp options) initialState

end HybridCacheProvider

/-- Well-formedness of a hybrid state: unique keys in both maps, every
LRU record stores its own key, every L1 key is tracked by the LRU index,
and the tracked population respects the bound. -/
def HybridWF (st : HybridState) (maxEntries : Nat) : Prop :=
  (alKeys st.lru).Nodup ∧
  (alKeys st.l1).Nodup ∧
  (∀ p ∈ st.lru, p.2.key = p.1) ∧
  (∀ k ∈ alKeys st.l1, k ∈ alKeys st.lru) ∧
  st.lru.length ≤ maxEntries

/-! ## Lemmas and claim theorems -/

section AListLemmas

variable [DecidableEq κ] {l : AList κ α}

theorem alGet_alSet_self (l : AList κ α) (k : κ) (v : α) :
    alGet (alSet l k v) k = some v := by
  induction l with
  | nil => simp [alSet, alGet]
  | cons hd tl ih =>
      by_cases h : hd.1 = k <;> simp [alSet, alGet, h, ih]

theorem alGet_alSet_ne (l : AList κ α) {k k' : κ} (v : α) (h : k ≠ k') :
    alGet (alSet l k v) k' = alGet l k' := by
  induction l with
  | nil => simp [alSet, alGet, h]
  | cons hd tl ih =>
      by_cases hh : hd.1 = k
      · subst hh
        simp [alSet, alGet, h, Ne.symm h]
      · simp [alSet, alGet, hh, ih]

theorem mem_alKeys_iff_alGet {k : κ} : k ∈ alKeys l ↔ (alGet l k).isSome := by
  induction l with
  | nil => simp [alKeys, alGet]
  | cons hd tl ih =>
      by_cases h : hd.1 = k
      · simp [alKeys, alGet, h]
      · simp only [alKeys, List.map_cons, List.mem_cons] at *
        simp [alGet, h, ih, Ne.symm h]

theorem alKeys_alSet_of_mem {k : κ} (v : α) (h : k ∈ alKeys l) :
    alKeys (alSet l k v) = alKeys l := by
  induction l with
  | nil => simp [alKeys] at h
  | cons hd tl ih =>
      by_cases hh : hd.1 = k
      · simp [alSet, alKeys, hh]
      · simp only [alKeys, List.map_cons, List.mem_cons] at h
        rcases h with h | h
        · exact absurd h.symm hh
        · have := ih h
          simp only [alKeys] at this
          simp [alSet, alKeys, hh, this]

theorem alKeys_alSet_of_not_mem {k : κ} (v : α) (h : k ∉ alKeys l) :
    alKeys (alSet l k v) = alKeys l ++ [k] := by
  induction l with
  | nil => simp [alSet, alKeys]
  | cons hd tl ih =>
      simp only [alKeys, List.map_cons, List.mem_cons] at h
      push_neg at h
      have := ih h.2
      simp only [alKeys] at this
      simp [alSet, alKeys, Ne.symm h.1, this]

theorem length_alSet_of_mem {k : κ} (v : α) (h : k ∈ alKeys l) :
    (alSet l k v).length = l.length := by
  have := alKeys_alSet_of_mem (l := l) v h
  simpa [alKeys] using congrArg List.length this

theorem length_alSet_of_not_mem {k : κ} (v : α) (h : k ∉ alKeys l) :
    (alSet l k v).length = l.length + 1 := by
  have := alKeys_alSet_of_not_mem (l := l) v h
  simpa [alKeys] using congrArg List.length this

theorem length_alSet_le (l : AList κ α) (k : κ) (v : α) :
    (alSet l k v).length ≤ l.length + 1 := by
  by_cases h : k ∈ alKeys l
  · rw [length_alSet_of_mem v h]; omega
  · rw [length_alSet_of_not_mem v h]

theorem nodup_alKeys_alSet (k : κ) (v : α) (h : (alKeys l).Nodup) :
    (alKeys (alSet l k v)).Nodup := by
  by_cases hm : k ∈ alKeys l
  · rwa [alKeys_alSet_of_mem v hm]
  · rw [alKeys_alSet_of_not_mem v hm]
    simpa [List.nodup_append] using ⟨h, hm⟩

theorem mem_alKeys_alDelete_iff (h : (alKeys l).Nodup) {k k' : κ} :
    k' ∈ alKeys (alDelete l k) ↔ k' ∈ alKeys l ∧ k' ≠ k := by
  induction l with
  | nil => simp [alDelete, alKeys]
  | cons hd tl ih =>
      simp only [alKeys, List.map_cons, List.nodup_cons] at h
      by_cases hh : hd.1 = k
      · subst hh
        simp only [alDelete, if_pos rfl, alKeys, List.map_cons, List.mem_cons]
        constructor
        · intro hm
          refine ⟨Or.inr hm, ?_⟩
          rintro rfl; exact h.1 hm
        · rintro ⟨h1 | h1, h2⟩
          · exact absurd h1 h2
          · exact h1
      · simp only [alDelete, if_neg hh, alKeys, List.map_cons, List.mem_cons]
        rw [show (List.map Prod.fst (alDelete tl k)) = alKeys (alDelete tl k) from rfl,
          ih h.2]
        constructor
        · rintro (h1 | ⟨h1, h2⟩)
          · exact ⟨Or.inl h1, by rintro rfl; exact hh h1.symm⟩
          · exact ⟨Or.inr h1, h2⟩
        · rintro ⟨h1 | h1, h2⟩
          · exact Or.inl h1
          · exact Or.inr ⟨h1, h2⟩

theorem nodup_alKeys_alDelete (k : κ) (h : (alKeys l).Nodup) :
    (alKeys (alDelete l k)).Nodup := by
  induction l with
  | nil => simp [alDelete, alKeys]
  | cons hd tl ih =>
      simp only [alKeys, List.map_cons, List.nodup_cons] at h
      by_cases hh : hd.1 = k
      · simpa [alDelete, hh, alKeys] using h.2
      · simp only [alDelete, if_neg hh, alKeys, List.map_cons, List.nodup_cons]
        refine ⟨?_, ih h.2⟩
        intro hmem
        exact h.1 ((mem_alKeys_alDelete_iff h.2).mp hmem).1

theorem length_alDelete_of_mem {k : κ} (h : (alKeys l).Nodup)
    (hm : k ∈ alKeys l) : (alDelete l k).length = l.length - 1 := by
  induction l with
  | nil => simp [alKeys] at hm
  | cons hd tl ih =>
      simp only [alKeys, List.map_cons, List.nodup_cons] at h
      by_cases hh : hd.1 = k
      · simp [alDelete, hh]
      · simp only [alKeys, List.map_cons, List.mem_cons] at hm
        rcases hm with hm | hm
        · exact absurd hm.symm hh
        · have htl := ih h.2 hm
          have : tl.length ≥ 1 := by
            cases tl with
            | nil => simp [alKeys] at hm
            | cons a b => simp
          simp only [alDelete, if_neg hh, List.length_cons, htl]
          omega

theorem alGet_alDelete_ne (l : AList κ α) {k k' : κ} (h : k' ≠ k) :
    alGet (alDelete l k) k' = alGet l k' := by
  induction l with
  | nil => simp [alDelete]
  | cons hd tl ih =>
      by_cases hh : hd.1 = k
      · subst hh
        simp [alDelete, alGet, Ne.symm h]
      · by_cases hk' : hd.1 = k'
        · subst hk'
          simp [alDelete, alGet, hh]
        · simp [alDelete, alGet, hh, hk', ih]

end AListLemmas

end Translaas


namespace Translaas

section ClaimC3

/-- C3 counterexample: the claim quantifies over *any* supplied
`absoluteExpirationMs` value `T` and demands a miss at every instant from
`writeTime + T` on. With `T = -1` (written at time `0`), the source stores
`expiresAt: null` (the `absoluteExpiration > 0 / === 0` ladder), so at
time `1000000`, far past `writeTime + T = -1`, `get` still returns the
value. -/
theorem memGet_after_negative_absolute_expiration :
    (0 : Int) + (-1) ≤ 1000000 ∧
    (MemoryCacheProvider.get
      (MemoryCacheProvider.set ([] : MemCache Nat) "k" 7 (some (-1)) none 0)
      "k" 1000000).1 = some 7 := by
  constructor
  · decide
  · decide

/-- C3 (amended to nonnegative `T`): `set(key, v, absoluteExpirationMs = T)`
with `0 ≤ T` at write time `w` gives the entry the wall-clock deadline
`w + T`: `get` returns the value at any instant strictly before `w + T`,
and at `w + T` and every later instant returns `null` while deleting the
entry; `T = 0` makes the entry immediately unreadable. -/
theorem memGet_absolute_expiration_boundary {V : Type} (c : MemCache V)
    (key : String) (v : V) (T w now : Int) (hT : 0 ≤ T) :
    (now < w + T →
      (MemoryCacheProvider.get
        (MemoryCacheProvider.set c key v (some T) none w) key now).1 = some v) ∧
    (w + T ≤ now →
      (MemoryCacheProvider.get
        (MemoryCacheProvider.set c key v (some T) none w) key now).1 = none ∧
      (MemoryCacheProvider.get
        (MemoryCacheProvider.set c key v (some T) none w) key now).2
        = alDelete (MemoryCacheProvider.set c key v (some T) none w) key) := by
  rcases eq_or_lt_of_le hT with h0 | h0
  · constructor
    · intro h
      have hlt : ¬(now ≥ w) := by omega
      simp [MemoryCacheProvider.get, MemoryCacheProvider.set, alGet_alSet_self,
        MemoryCacheProvider.isExpired, ← h0, hlt]
    · intro h
      have hge : now ≥ w := by omega
      simp [MemoryCacheProvider.get, MemoryCacheProvider.set, alGet_alSet_self,
        MemoryCacheProvider.isExpired, ← h0, hge]
  · constructor
    · intro h
      have hlt : ¬(now ≥ w + T) := by omega
      simp [MemoryCacheProvider.get, MemoryCacheProvider.set, alGet_alSet_self,
        MemoryCacheProvider.isExpired, h0, hlt]
    · intro h
      have hge : now ≥ w + T := by omega
      simp [MemoryCacheProvider.get, MemoryCacheProvider.set, alGet_alSet_self,
        MemoryCacheProvider.isExpired, h0, hge]

/-- Witness for the amended C3 theorem at a concrete input: `T = 5`,
written at time `0`; readable at time `3 < 5`, a deleted miss at time
`5`. -/
theorem memGet_absolute_expiration_boundary_witness :
    (0 : Int) ≤ 5 ∧
    (MemoryCacheProvider.get
      (MemoryCacheProvider.set ([] : MemCache Nat) "k" 7 (some 5) none 0)
      "k" 3).1 = some 7 ∧
    (MemoryCacheProvider.get
      (MemoryCacheProvider.set ([] : MemCache Nat) "k" 7 (some 5) none 0)
      "k" 5).1 = none :=
  ⟨by decide,
   (memGet_absolute_expiration_boundary ([] : MemCache Nat) "k" 7 5 0 3
       (by decide)).1 (by decide),
   ((memGet_absolute_expiration_boundary ([] : MemCache Nat) "k" 7 5 0 5
       (by decide)).2 (by decide)).1⟩

end ClaimC3

end Translaas

namespace Translaas

section ClaimC5

/-- C5: a cancellation signal that is already aborted when any public
operation of any tier starts (`getProject`, `getGroup`, `saveProject`,
`isCached`, `clearAll` on the file, browser and hybrid providers, plus the
hybrid `warmup`) makes the operation fail immediately with the
`'Operation cancelled'` exception, with no observable state change: the
filesystem, the browser storage and both hybrid tiers are returned
exactly as they were, regardless of any L2 outcome. -/
theorem cancelled_signal_is_checked_first :
    (∀ cacheDir fs project lang now,
      FileCacheProvider.getProjectAsync cacheDir fs project lang now true
        = .error (cancelledError (some cacheDir) (some project) (some lang))) ∧
    (∀ cacheDir fs project group lang now,
      FileCacheProvider.getGroupAsync cacheDir fs project group lang now true
        = .error (cancelledError (some cacheDir) (some project) (some lang))) ∧
    (∀ cacheDir fs project lang data now,
      FileCacheProvider.saveProjectAsync cacheDir fs project lang data now true
        = (fs, .error (cancelledError (some cacheDir) (some project) (some lang)))) ∧
    (∀ cacheDir fs project lang now,
      FileCacheProvider.isCachedAsync cacheDir fs project lang now true
        = .error (cancelledError (some cacheDir) (some project) (some lang))) ∧
    (∀ cacheDir fs,
      FileCacheProvider.clearAllAsync cacheDir fs true
        = (fs, .error (cancelledError (some cacheDir) none none))) ∧
    (∀ env project lang now,
      BrowserCacheProvider.getProjectAsync env project lang now true
        = (env, .error (cancelledError none (some project) (some lang)))) ∧
    (∀ env project group lang now,
      BrowserCacheProvider.getGroupAsync env project group lang now true
        = (env, .error (cancelledError none (some project) (some lang)))) ∧
    (∀ env project lang data now,
      BrowserCacheProvider.saveProjectAsync env project lang data now true
        = (env, .error (cancelledError none (some project) (some lang)))) ∧
    (∀ env project lang now,
      BrowserCacheProvider.isCachedAsync env project lang now true
        = (env, .error (cancelledError none (some project) (some lang)))) ∧
    (∀ env,
      BrowserCacheProvider.clearAllAsync env true
        = (env, .error (cancelledError none none none))) ∧
    (∀ st options project lang l2 now,
      HybridCacheProvider.getProjectAsync st options project lang l2 now true
        = (st, .error (cancelledError none (some project) (some lang)))) ∧
    (∀ st options project group lang l2 now,
      HybridCacheProvider.getGroupAsync st options project group lang l2 now true
        = (st, .error (cancelledError none (some project) (some lang)))) ∧
    (∀ st options project lang data l2 now,
      HybridCacheProvider.saveProjectAsync st options project lang data l2 now true
        = (st, .error (cancelledError none (some project) (some lang)))) ∧
    (∀ st project lang l2 now,
      HybridCacheProvider.isCachedAsync st project lang l2 now true
        = (st, .error (cancelledError none (some project) (some lang)))) ∧
    (∀ st l2,
      HybridCacheProvider.clearAllAsync st l2 true
        = (st, .error (cancelledError none none none))) ∧
    (∀ st options items,
      HybridCacheProvider.warmupAsync st options items true
        = (st, .error (cancelledError none none none))) :=
  ⟨fun _ _ _ _ _ => rfl, fun _ _ _ _ _ _ => rfl, fun _ _ _ _ _ _ => rfl,
   fun _ _ _ _ _ => rfl, fun _ _ => rfl,
   fun _ _ _ _ => rfl, fun _ _ _ _ _ => rfl, fun _ _ _ _ _ => rfl,
   fun _ _ _ _ => rfl, fun _ => rfl,
   fun _ _ _ _ _ _ => rfl, fun _ _ _ _ _ _ _ => rfl, fun _ _ _ _ _ _ _ => rfl,
   fun _ _ _ _ _ => rfl, fun _ _ => rfl, fun _ _ _ => rfl⟩

end ClaimC5

end Translaas

namespace Translaas

section ClaimC1

/-- The manifest and payload files of a pair never share a path (they
differ in their final segment). -/
theorem getManifestFile_ne_getProjectCacheFile (cacheDir project lang : String) :
    FileCacheProvider.getManifestFile cacheDir project lang
      ≠ FileCacheProvider.getProjectCacheFile cacheDir project lang := by
  intro h
  simp only [FileCacheProvider.getManifestFile, FileCacheProvider.getProjectCacheFile,
    FileCacheProvider.getProjectCacheDir, List.append_cancel_left_eq,
    List.cons.injEq, and_true] at h
  exact absurd h (by decide)

/-- C1 counterexample: a filesystem holding a valid, unexpired manifest
for `("p", "l")` but no payload file. The claim demands that `getProject`
raise here; the source's `readJsonFile` maps `ENOENT` to `null` and
`getProjectAsync` then returns `null` — a miss, with no error. -/
theorem fileGetProject_missing_payload_is_miss :
    (alGet [(FileCacheProvider.getManifestFile "c" "p" "l",
              FileContent.validJson (JsonValue.manifestVal
                { project := "p", lang := "l", cachedAt := 0 }))]
        (FileCacheProvider.getManifestFile "c" "p" "l")
      = some (FileContent.validJson (JsonValue.manifestVal
                { project := "p", lang := "l", cachedAt := 0 }))) ∧
    FileCacheProvider.isExpired
      (some { project := "p", lang := "l", cachedAt := 0 }) 100 = false ∧
    (alGet [(FileCacheProvider.getManifestFile "c" "p" "l",
              FileContent.validJson (JsonValue.manifestVal
                { project := "p", lang := "l", cachedAt := 0 }))]
        (FileCacheProvider.getProjectCacheFile "c" "p" "l")
      = none) ∧
    FileCacheProvider.getProjectAsync "c"
      [(FileCacheProvider.getManifestFile "c" "p" "l",
         FileContent.validJson (JsonValue.manifestVal
           { project := "p", lang := "l", cachedAt := 0 }))]
      "p" "l" 100 false = .ok none := by
  refine ⟨by decide, by decide, by decide, by decide⟩

/-- C1 (amended): with the manifest present and unexpired, a payload file
that fails to parse raises the wrapped read error, while a *missing*
payload file is reported as a miss (`null`); a miss is also reported when
the manifest is absent or expired, and in those two cases the payload file
is never read (the result is the same whatever content is stored at the
payload path). -/
theorem fileGetProject_read_path (cacheDir : String) (fs : FileSystem)
    (project lang : String) (now : Int) :
    (alGet fs (FileCacheProvider.getManifestFile cacheDir project lang) = none →
      ∀ c, FileCacheProvider.getProjectAsync cacheDir
             (alSet fs (FileCacheProvider.getProjectCacheFile cacheDir project lang) c)
             project lang now false = .ok none) ∧
    (∀ mv, alGet fs (FileCacheProvider.getManifestFile cacheDir project lang)
             = some (.validJson mv) →
      FileCacheProvider.isExpired (some (castManifest mv)) now = true →
      ∀ c, FileCacheProvider.getProjectAsync cacheDir
             (alSet fs (FileCacheProvider.getProjectCacheFile cacheDir project lang) c)
             project lang now false = .ok none) ∧
    (∀ mv, alGet fs (FileCacheProvider.getManifestFile cacheDir project lang)
             = some (.validJson mv) →
      FileCacheProvider.isExpired (some (castManifest mv)) now = false →
      alGet fs (FileCacheProvider.getProjectCacheFile cacheDir project lang)
          = some .malformed →
      FileCacheProvider.getProjectAsync cacheDir fs project lang now false
        = .error { message := "Failed to read cache file: "
                     ++ pathString (FileCacheProvider.getProjectCacheFile cacheDir project lang),
                   cacheDirectory := some cacheDir,
                   innerError := some ⟨"SyntaxError", "Unexpected token"⟩ }) ∧
    (∀ mv, alGet fs (FileCacheProvider.getManifestFile cacheDir project lang)
             = some (.validJson mv) →
      FileCacheProvider.isExpired (some (castManifest mv)) now = false →
      alGet fs (FileCacheProvider.getProjectCacheFile cacheDir project lang) = none →
      FileCacheProvider.getProjectAsync cacheDir fs project lang now false
        = .ok none) := by
  have hne := getManifestFile_ne_getProjectCacheFile cacheDir project lang
  refine ⟨?_, ?_, ?_, ?_⟩
  · intro hM c
    have hM' : alGet
        (alSet fs (FileCacheProvider.getProjectCacheFile cacheDir project lang) c)
        (FileCacheProvider.getManifestFile cacheDir project lang) = none := by
      rw [alGet_alSet_ne _ _ (Ne.symm hne)]; exact hM
    simp [FileCacheProvider.getProjectAsync, FileCacheProvider.readJsonFile, hM']
  · intro mv hM hexp c
    have hM' : alGet
        (alSet fs (FileCacheProvider.getProjectCacheFile cacheDir project lang) c)
        (FileCacheProvider.getManifestFile cacheDir project lang)
        = some (.validJson mv) := by
      rw [alGet_alSet_ne _ _ (Ne.symm hne)]; exact hM
    simp [FileCacheProvider.getProjectAsync, FileCacheProvider.readJsonFile, hM', hexp]
  · intro mv hM hexp hP
    simp [FileCacheProvider.getProjectAsync, FileCacheProvider.readJsonFile, hM, hexp, hP]
  · intro mv hM hexp hP
    simp [FileCacheProvider.getProjectAsync, FileCacheProvider.readJsonFile, hM, hexp, hP]

/-- Witness for the amended C1 theorem: the absent-manifest clause
evaluated on the empty filesystem, and the corrupt-payload clause on a
filesystem holding an unexpired manifest and a malformed payload for
`("p", "l")`. -/
theorem fileGetProject_read_path_witness :
    FileCacheProvider.getProjectAsync "c"
      (alSet [] (FileCacheProvider.getProjectCacheFile "c" "p" "l") .malformed)
      "p" "l" 100 false = .ok none ∧
    FileCacheProvider.getProjectAsync "c"
      [(FileCacheProvider.getManifestFile "c" "p" "l",
         FileContent.validJson (JsonValue.manifestVal
           { project := "p", lang := "l", cachedAt := 0 })),
       (FileCacheProvider.getProjectCacheFile "c" "p" "l", FileContent.malformed)]
      "p" "l" 100 false
      = .error { message := "Failed to read cache file: "
                   ++ pathString (FileCacheProvider.getProjectCacheFile "c" "p" "l"),
                 cacheDirectory := some "c",
                 innerError := some ⟨"SyntaxError", "Unexpected token"⟩ } :=
  ⟨(fileGetProject_read_path "c" [] "p" "l" 100).1 (by decide) .malformed,
   (fileGetProject_read_path "c"
      [(FileCacheProvider.getManifestFile "c" "p" "l",
         FileContent.validJson (JsonValue.manifestVal
           { project := "p", lang := "l", cachedAt := 0 })),
       (FileCacheProvider.getProjectCacheFile "c" "p" "l", FileContent.malformed)]
      "p" "l" 100).2.2.1 (.manifestVal { project := "p", lang := "l", cachedAt := 0 })
      (by decide) (by decide) (by decide)⟩

end ClaimC1

end Translaas

namespace Translaas

section ClaimC9

/-- Two paths in the same directory with different final segments
differ. -/
theorem append_last_ne (base : List String) {x y : String} (h : x ≠ y) :
    base ++ [x] ≠ base ++ [y] := by
  simp [List.append_cancel_left_eq, h]

/-- `` `${path}.tmp` `` for a path written as directory plus file name. -/
theorem tmpPath_append (base : List String) (x : String) :
    FileCacheProvider.tmpPath (base ++ [x]) = base ++ [x ++ ".tmp"] := by
  simp [FileCacheProvider.tmpPath]

/-- With unique paths, a deleted path is gone. -/
theorem alGet_alDelete_self [DecidableEq κ] {α : Type} {l : AList κ α}
    (h : (alKeys l).Nodup) (k : κ) : alGet (alDelete l k) k = none := by
  induction l with
  | nil => simp [alDelete, alGet]
  | cons hd tl ih =>
      simp only [alKeys, List.map_cons, List.nodup_cons] at h
      by_cases hh : hd.1 = k
      · subst hh
        simp only [alDelete, if_pos rfl]
        rw [← Option.not_isSome_iff_eq_none, ← mem_alKeys_iff_alGet]
        exact h.1
      · simp [alDelete, alGet, hh, ih h.2]

end ClaimC9

end Translaas

namespace Translaas
section ClaimC9b

/-- Closed form of a successful (non-aborted) `saveProjectAsync`: both
temp files staged, then the payload renamed onto `project.json` first and
the manifest onto `manifest.json` second. -/
theorem fileSave_eq (cacheDir : String) (fs : FileSystem)
    (project lang : String) (data : TranslationProject) (now : Int) :
    FileCacheProvider.saveProjectAsync cacheDir fs project lang data now false
      = (alSet (alDelete
           (alSet (alDelete
             (alSet (alSet fs
               ([cacheDir, project, lang] ++ ["project.json.tmp"])
               (.validJson (.groupsVal data.groups)))
               ([cacheDir, project, lang] ++ ["manifest.json.tmp"])
               (.validJson (.manifestVal { project := project, lang := lang, cachedAt := now })))
             ([cacheDir, project, lang] ++ ["project.json.tmp"]))
             ([cacheDir, project, lang] ++ ["project.json"])
             (.validJson (.groupsVal data.groups)))
           ([cacheDir, project, lang] ++ ["manifest.json.tmp"]))
           ([cacheDir, project, lang] ++ ["manifest.json"])
           (.validJson (.manifestVal { project := project, lang := lang, cachedAt := now })),
         .ok ()) := by
  have hP : FileCacheProvider.getProjectCacheFile cacheDir project lang
      = [cacheDir, project, lang] ++ ["project.json"] := rfl
  have hM : FileCacheProvider.getManifestFile cacheDir project lang
      = [cacheDir, project, lang] ++ ["manifest.json"] := rfl
  have htP : FileCacheProvider.tmpPath ([cacheDir, project, lang] ++ ["project.json"])
      = [cacheDir, project, lang] ++ ["project.json.tmp"] := by
    rw [tmpPath_append]
    simp only [List.append_cancel_left_eq]
    decide
  have htM : FileCacheProvider.tmpPath ([cacheDir, project, lang] ++ ["manifest.json"])
      = [cacheDir, project, lang] ++ ["manifest.json.tmp"] := by
    rw [tmpPath_append]
    simp only [List.append_cancel_left_eq]
    decide
  have htMtP : ([cacheDir, project, lang] ++ ["manifest.json.tmp"] : List String)
      ≠ [cacheDir, project, lang] ++ ["project.json.tmp"] := append_last_ne _ (by decide)
  have hPtM : ([cacheDir, project, lang] ++ ["project.json"] : List String)
      ≠ [cacheDir, project, lang] ++ ["manifest.json.tmp"] := append_last_ne _ (by decide)
  have hget2 : alGet
      (alSet (alSet fs ([cacheDir, project, lang] ++ ["project.json.tmp"])
          (.validJson (.groupsVal data.groups)))
        ([cacheDir, project, lang] ++ ["manifest.json.tmp"])
        (.validJson (.manifestVal { project := project, lang := lang, cachedAt := now })))
      ([cacheDir, project, lang] ++ ["project.json.tmp"])
      = some (.validJson (.groupsVal data.groups)) := by
    rw [alGet_alSet_ne _ _ htMtP, alGet_alSet_self]
  have hget3 : alGet
      (alSet (alDelete
          (alSet (alSet fs ([cacheDir, project, lang] ++ ["project.json.tmp"])
              (.validJson (.groupsVal data.groups)))
            ([cacheDir, project, lang] ++ ["manifest.json.tmp"])
            (.validJson (.manifestVal { project := project, lang := lang, cachedAt := now })))
          ([cacheDir, project, lang] ++ ["project.json.tmp"]))
        ([cacheDir, project, lang] ++ ["project.json"])
        (.validJson (.groupsVal data.groups)))
      ([cacheDir, project, lang] ++ ["manifest.json.tmp"])
      = some (.validJson (.manifestVal { project := project, lang := lang, cachedAt := now })) := by
    rw [alGet_alSet_ne _ _ hPtM, alGet_alDelete_ne _ htMtP, alGet_alSet_self]
  simp only [FileCacheProvider.saveProjectAsync, Bool.false_eq_true, if_false, htP, htM, hP, hM,
    fsRename, hget2, hget3]

end ClaimC9b

end Translaas

namespace Translaas

section ClaimC9c

/-- C9 counterexample: the payload is persisted at
`{cacheDir}/{project}/{lang}/project.json`, not at
`{cacheDir}/{project}/{lang}/payload.json` as the claim states — after a
save on an empty filesystem nothing exists at the `payload.json` path. -/
theorem fileSave_no_payload_json :
    (FileCacheProvider.saveProjectAsync "c" [] "p" "l" ⟨[]⟩ 5 false).2 = .ok () ∧
    alGet (FileCacheProvider.saveProjectAsync "c" [] "p" "l" ⟨[]⟩ 5 false).1
        ["c", "p", "l", "payload.json"] = none ∧
    alGet (FileCacheProvider.saveProjectAsync "c" [] "p" "l" ⟨[]⟩ 5 false).1
        ["c", "p", "l", "project.json"]
      = some (.validJson (.groupsVal [])) := by
  refine ⟨by decide, by decide, by decide⟩

/-- C9 (amended: the payload file is named `project.json`): a successful
`saveProjectAsync` leaves exactly two final files,
`{cacheDir}/{project}/{lang}/project.json` holding the serialized groups
and `{cacheDir}/{project}/{lang}/manifest.json` holding the manifest
record `{project, lang, cachedAt, no expiresAt}` (which conforms to the
manifest schema: string project, string lang, numeric cachedAt, optional
expiresAt); both staging `.tmp` paths end up absent and every other path
is untouched. -/
theorem fileSave_layout (cacheDir : String) (fs : FileSystem)
    (project lang : String) (data : TranslationProject) (now : Int)
    (hnd : (alKeys fs).Nodup) :
    (FileCacheProvider.saveProjectAsync cacheDir fs project lang data now false).2
      = .ok () ∧
    alGet (FileCacheProvider.saveProjectAsync cacheDir fs project lang data now false).1
        ([cacheDir, project, lang] ++ ["project.json"])
      = some (.validJson (.groupsVal data.groups)) ∧
    alGet (FileCacheProvider.saveProjectAsync cacheDir fs project lang data now false).1
        ([cacheDir, project, lang] ++ ["manifest.json"])
      = some (.validJson (.manifestVal
          { project := project, lang := lang, cachedAt := now })) ∧
    alGet (FileCacheProvider.saveProjectAsync cacheDir fs project lang data now false).1
        ([cacheDir, project, lang] ++ ["project.json.tmp"]) = none ∧
    alGet (FileCacheProvider.saveProjectAsync cacheDir fs project lang data now false).1
        ([cacheDir, project, lang] ++ ["manifest.json.tmp"]) = none ∧
    (∀ p : FilePath',
      p ≠ [cacheDir, project, lang] ++ ["project.json"] →
      p ≠ [cacheDir, project, lang] ++ ["manifest.json"] →
      p ≠ [cacheDir, project, lang] ++ ["project.json.tmp"] →
      p ≠ [cacheDir, project, lang] ++ ["manifest.json.tmp"] →
      alGet (FileCacheProvider.saveProjectAsync cacheDir fs project lang data now false).1 p
        = alGet fs p) := by
  rw [fileSave_eq]
  have hMP : ([cacheDir, project, lang] ++ ["manifest.json"] : List String)
      ≠ [cacheDir, project, lang] ++ ["project.json"] := append_last_ne _ (by decide)
  have hPtM : ([cacheDir, project, lang] ++ ["project.json"] : List String)
      ≠ [cacheDir, project, lang] ++ ["manifest.json.tmp"] := append_last_ne _ (by decide)
  have htPtM : ([cacheDir, project, lang] ++ ["project.json.tmp"] : List String)
      ≠ [cacheDir, project, lang] ++ ["manifest.json.tmp"] := append_last_ne _ (by decide)
  have hMtM : ([cacheDir, project, lang] ++ ["manifest.json"] : List String)
      ≠ [cacheDir, project, lang] ++ ["project.json.tmp"] := append_last_ne _ (by decide)
  have hMtM2 : ([cacheDir, project, lang] ++ ["manifest.json"] : List String)
      ≠ [cacheDir, project, lang] ++ ["manifest.json.tmp"] := append_last_ne _ (by decide)
  have hPtP : ([cacheDir, project, lang] ++ ["project.json"] : List String)
      ≠ [cacheDir, project, lang] ++ ["project.json.tmp"] := append_last_ne _ (by decide)
  have htMtP : ([cacheDir, project, lang] ++ ["manifest.json.tmp"] : List String)
      ≠ [cacheDir, project, lang] ++ ["project.json.tmp"] := append_last_ne _ (by decide)
  have hnd2 : (alKeys (alSet (alSet fs
        ([cacheDir, project, lang] ++ ["project.json.tmp"])
        (FileContent.validJson (.groupsVal data.groups)))
      ([cacheDir, project, lang] ++ ["manifest.json.tmp"])
      (FileContent.validJson (.manifestVal
        { project := project, lang := lang, cachedAt := now })))).Nodup :=
    nodup_alKeys_alSet _ _ (nodup_alKeys_alSet _ _ hnd)
  refine ⟨rfl, ?_, ?_, ?_, ?_, ?_⟩
  · rw [alGet_alSet_ne _ _ hMP, alGet_alDelete_ne _ hPtM, alGet_alSet_self]
  · rw [alGet_alSet_self]
  · rw [alGet_alSet_ne _ _ hMtM, alGet_alDelete_ne _ htPtM,
      alGet_alSet_ne _ _ hPtP]
    exact alGet_alDelete_self hnd2 _
  · rw [alGet_alSet_ne _ _ hMtM2]
    exact alGet_alDelete_self
      (nodup_alKeys_alSet _ _ (nodup_alKeys_alDelete _ hnd2)) _
  · intro p hp1 hp2 hp3 hp4
    rw [alGet_alSet_ne _ _ (Ne.symm hp2), alGet_alDelete_ne _ hp4,
      alGet_alSet_ne _ _ (Ne.symm hp1), alGet_alDelete_ne _ hp3,
      alGet_alSet_ne _ _ (Ne.symm hp4), alGet_alSet_ne _ _ (Ne.symm hp3)]

/-- Witness for the amended C9 theorem: saving `("p", "l")` at time `5`
over a one-file filesystem produces the two final files, leaves no `.tmp`
files, and leaves the unrelated path `["z"]` untouched. -/
theorem fileSave_layout_witness :
    alGet (FileCacheProvider.saveProjectAsync "c"
        [(["z"], FileContent.malformed)] "p" "l" ⟨[]⟩ 5 false).1
        (["c", "p", "l"] ++ ["project.json"])
      = some (.validJson (.groupsVal [])) ∧
    alGet (FileCacheProvider.saveProjectAsync "c"
        [(["z"], FileContent.malformed)] "p" "l" ⟨[]⟩ 5 false).1
        (["c", "p", "l"] ++ ["manifest.json"])
      = some (.validJson (.manifestVal
          { project := "p", lang := "l", cachedAt := 5 })) ∧
    alGet (FileCacheProvider.saveProjectAsync "c"
        [(["z"], FileContent.malformed)] "p" "l" ⟨[]⟩ 5 false).1
        (["c", "p", "l"] ++ ["project.json.tmp"]) = none ∧
    alGet (FileCacheProvider.saveProjectAsync "c"
        [(["z"], FileContent.malformed)] "p" "l" ⟨[]⟩ 5 false).1 ["z"]
      = alGet [(["z"], FileContent.malformed)] ["z"] :=
  ⟨(fileSave_layout "c" [(["z"], FileContent.malformed)] "p" "l" ⟨[]⟩ 5
      (by decide)).2.1,
   (fileSave_layout "c" [(["z"], FileContent.malformed)] "p" "l" ⟨[]⟩ 5
      (by decide)).2.2.1,
   (fileSave_layout "c" [(["z"], FileContent.malformed)] "p" "l" ⟨[]⟩ 5
      (by decide)).2.2.2.1,
   (fileSave_layout "c" [(["z"], FileContent.malformed)] "p" "l" ⟨[]⟩ 5
      (by decide)).2.2.2.2.2 ["z"] (by decide) (by decide) (by decide) (by decide)⟩

end ClaimC9c

end Translaas

namespace Translaas

section ClaimC6

/-- C6 counterexample: with the storage-availability probe failing
(`available = false`), `isCachedAsync` does not raise — it silently
returns the default `false`, contradicting the claim that every
StorageBackedCache operation surfaces the unavailability as an error. -/
theorem browserIsCached_unavailable_returns_false :
    BrowserCacheProvider.isCachedAsync
        { available := false, store := [] } "p" "l" 0 false
      = ({ available := false, store := [] }, .ok false) := by
  decide

/-- C6 (amended): when the write-then-delete sentinel probe fails,
`getProject`, `getGroup`, `saveProject` and `clearAll` all surface the
condition as the `'localStorage is not available in this environment'`
exception (never a silent default), while `isCached` alone swallows it and
reports `false`. -/
theorem browser_unavailable_surfaces (env : BrowserEnv)
    (project group lang : String) (data : TranslationProject) (now : Int)
    (h : env.available = false) :
    BrowserCacheProvider.getProjectAsync env project lang now false
      = (env, .error { message := "localStorage is not available in this environment",
                       project := some project, language := some lang }) ∧
    BrowserCacheProvider.getGroupAsync env project group lang now false
      = (env, .error { message := "localStorage is not available in this environment",
                       project := some project, language := some lang }) ∧
    BrowserCacheProvider.saveProjectAsync env project lang data now false
      = (env, .error { message := "localStorage is not available in this environment",
                       project := some project, language := some lang }) ∧
    BrowserCacheProvider.clearAllAsync env false
      = (env, .error { message := "localStorage is not available in this environment" }) ∧
    BrowserCacheProvider.isCachedAsync env project lang now false
      = (env, .ok false) := by
  refine ⟨?_, ?_, ?_, ?_, ?_⟩ <;>
    simp [BrowserCacheProvider.getProjectAsync, BrowserCacheProvider.getGroupAsync,
      BrowserCacheProvider.saveProjectAsync, BrowserCacheProvider.clearAllAsync,
      BrowserCacheProvider.isCachedAsync, h]

/-- Witness for the amended C6 theorem on a concrete unavailable
environment. -/
theorem browser_unavailable_surfaces_witness :
    BrowserCacheProvider.getProjectAsync
        { available := false, store := [] } "p" "l" 0 false
      = ({ available := false, store := [] },
         .error { message := "localStorage is not available in this environment",
                  project := some "p", language := some "l" }) ∧
    BrowserCacheProvider.isCachedAsync
        { available := false, store := [] } "p" "l" 0 false
      = ({ available := false, store := [] }, .ok false) :=
  ⟨(browser_unavailable_surfaces { available := false, store := [] }
      "p" "g" "l" ⟨[]⟩ 0 rfl).1,
   (browser_unavailable_surfaces { available := false, store := [] }
      "p" "g" "l" ⟨[]⟩ 0 rfl).2.2.2.2⟩

end ClaimC6

section ClaimC8

/-- C8: a stored blob that fails `JSON.parse` under the cache key makes
`getProjectAsync` delete the malformed record and return `null` — no
exception escapes. -/
theorem browserGetProject_malformed_blob (env : BrowserEnv)
    (project lang : String) (now : Int)
    (hav : env.available = true)
    (hm : alGet env.store (BrowserCacheProvider.getStorageKey project lang)
            = some .malformed) :
    BrowserCacheProvider.getProjectAsync env project lang now false
      = ({ env with store :=
             alDelete env.store (BrowserCacheProvider.getStorageKey project lang) },
         .ok none) := by
  simp [BrowserCacheProvider.getProjectAsync, hav, hm]

/-- Witness for C8: a store holding malformed bytes under the key for
`("p", "l")`. -/
theorem browserGetProject_malformed_blob_witness :
    BrowserCacheProvider.getProjectAsync
        { available := true,
          store := [(BrowserCacheProvider.getStorageKey "p" "l", RawValue.malformed)] }
        "p" "l" 0 false
      = ({ available := true, store := [] }, .ok none) :=
  browserGetProject_malformed_blob
    { available := true,
      store := [(BrowserCacheProvider.getStorageKey "p" "l", RawValue.malformed)] }
    "p" "l" 0 rfl (by decide)

end ClaimC8

end Translaas

namespace Translaas

section ClaimC7

/-- The quota-exceeded message and the generic storage-failure message
differ, whatever the project, language or key (their first characters
already differ). -/
theorem quota_message_ne_generic_message (project lang : String) :
    ("Storage quota exceeded. Cannot cache project: " ++ project
        ++ ", language: " ++ lang)
      ≠ ("Failed to save cache entry: "
          ++ BrowserCacheProvider.getStorageKey project lang) := by
  intro h
  have h2 := congrArg String.data h
  simp only [String.data_append] at h2
  simp only [List.cons_append, List.cons.injEq] at h2
  exact absurd h2.1 (by decide)

/-- C7: a `saveProjectAsync` whose underlying `localStorage.setItem`
throws is classified by `isQuotaError` (known quota error names, or a
message mentioning `quota`): a quota-style error surfaces with the
message naming the project and language, any other failure with the
message naming the storage key; both are the same exception type
(`TranslaasOfflineCacheException`) carrying the thrown error as the inner
cause, and the two messages always differ. -/
theorem browserSave_write_failure_classified (env : BrowserEnv)
    (project lang : String) (data : TranslationProject) (now : Int)
    (err : JsError) (hav : env.available = true)
    (hfail : env.setFailure = some err) :
    (BrowserCacheProvider.isQuotaError err = true →
      BrowserCacheProvider.saveProjectAsync env project lang data now false
        = (env, .error { message := "Storage quota exceeded. Cannot cache project: "
                           ++ project ++ ", language: " ++ lang,
                         project := some project, language := some lang,
                         innerError := some err })) ∧
    (BrowserCacheProvider.isQuotaError err = false →
      BrowserCacheProvider.saveProjectAsync env project lang data now false
        = (env, .error { message := "Failed to save cache entry: "
                           ++ BrowserCacheProvider.getStorageKey project lang,
                         project := some project, language := some lang,
                         innerError := some err })) ∧
    (∃ a b c : String,
      ("Storage quota exceeded. Cannot cache project: " ++ project
          ++ ", language: " ++ lang)
        = a ++ project ++ b ++ lang ++ c) ∧
    ("Storage quota exceeded. Cannot cache project: " ++ project
        ++ ", language: " ++ lang)
      ≠ ("Failed to save cache entry: "
          ++ BrowserCacheProvider.getStorageKey project lang) := by
  refine ⟨?_, ?_,
    ⟨"Storage quota exceeded. Cannot cache project: ", ", language: ", "",
      by simp⟩,
    quota_message_ne_generic_message project lang⟩
  · intro hq
    simp [BrowserCacheProvider.saveProjectAsync, hav, hfail, hq]
  · intro hq
    simp [BrowserCacheProvider.saveProjectAsync, hav, hfail, hq]

/-- Witness for C7: a genuine `QuotaExceededError` and an unrelated
`TypeError` thrown by the same write, on a concrete environment. -/
theorem browserSave_write_failure_classified_witness :
    BrowserCacheProvider.saveProjectAsync
        { available := true, store := [],
          setFailure := some ⟨"QuotaExceededError", "exceeded"⟩ }
        "p" "l" ⟨[]⟩ 0 false
      = ({ available := true, store := [],
           setFailure := some ⟨"QuotaExceededError", "exceeded"⟩ },
         .error { message := "Storage quota exceeded. Cannot cache project: "
                    ++ "p" ++ ", language: " ++ "l",
                  project := some "p", language := some "l",
                  innerError := some ⟨"QuotaExceededError", "exceeded"⟩ }) ∧
    BrowserCacheProvider.saveProjectAsync
        { available := true, store := [],
          setFailure := some ⟨"TypeError", "boom"⟩ }
        "p" "l" ⟨[]⟩ 0 false
      = ({ available := true, store := [],
           setFailure := some ⟨"TypeError", "boom"⟩ },
         .error { message := "Failed to save cache entry: "
                    ++ BrowserCacheProvider.getStorageKey "p" "l",
                  project := some "p", language := some "l",
                  innerError := some ⟨"TypeError", "boom"⟩ }) :=
  ⟨(browserSave_write_failure_classified
      { available := true, store := [],
        setFailure := some ⟨"QuotaExceededError", "exceeded"⟩ }
      "p" "l" ⟨[]⟩ 0 ⟨"QuotaExceededError", "exceeded"⟩ rfl rfl).1 (by decide),
   (browserSave_write_failure_classified
      { available := true, store := [],
        setFailure := some ⟨"TypeError", "boom"⟩ }
      "p" "l" ⟨[]⟩ 0 ⟨"TypeError", "boom"⟩ rfl rfl).2.1 (by decide)⟩

end ClaimC7

end Translaas

namespace Translaas

section ClaimC10

/-- C10: both durable tiers' `saveProject` write records with no
`expiresAt` (only project, lang, payload and `cachedAt`), both tiers'
expiration checks treat an absent or zero `expiresAt` as never expiring,
and consequently a record written by `saveProject` is readable and
reported cached at *every* instant `t`, no matter how far from the write
time. -/
theorem durable_saves_never_expire
    (cacheDir : String) (fs : FileSystem) (env : BrowserEnv)
    (project lang : String) (data : TranslationProject) (now t : Int)
    (hav : env.available = true) (hsf : env.setFailure = none)
    (hp : project ≠ "") (hl : lang ≠ "") :
    alGet (FileCacheProvider.saveProjectAsync cacheDir fs project lang data now false).1
        (FileCacheProvider.getManifestFile cacheDir project lang)
      = some (.validJson (.manifestVal
          { project := project, lang := lang, cachedAt := now, expiresAt := none })) ∧
    BrowserCacheProvider.saveProjectAsync env project lang data now false
      = ({ env with store :=
               (alSet env.store (BrowserCacheProvider.getStorageKey project lang)
                 (.validEntry { project := some project, lang := some lang,
                                data := some data.groups, cachedAt := some now,
                                expiresAt := none })) }, .ok ()) ∧
    (∀ m : CacheManifest, m.expiresAt = none ∨ m.expiresAt = some 0 →
        FileCacheProvider.isExpired (some m) t = false) ∧
    (∀ e : StoredEntry, e.expiresAt = none ∨ e.expiresAt = some 0 →
        BrowserCacheProvider.isExpired (some e) t = false) ∧
    FileCacheProvider.getProjectAsync cacheDir
        (FileCacheProvider.saveProjectAsync cacheDir fs project lang data now false).1
        project lang t false = .ok (some ⟨data.groups⟩) ∧
    FileCacheProvider.isCachedAsync cacheDir
        (FileCacheProvider.saveProjectAsync cacheDir fs project lang data now false).1
        project lang t false = .ok true ∧
    BrowserCacheProvider.getProjectAsync
        (BrowserCacheProvider.saveProjectAsync env project lang data now false).1
        project lang t false
      = ((BrowserCacheProvider.saveProjectAsync env project lang data now false).1,
         .ok (some ⟨data.groups⟩)) ∧
    BrowserCacheProvider.isCachedAsync
        (BrowserCacheProvider.saveProjectAsync env project lang data now false).1
        project lang t false
      = ((BrowserCacheProvider.saveProjectAsync env project lang data now false).1,
         .ok true) := by
  have hM : FileCacheProvider.getManifestFile cacheDir project lang
      = [cacheDir, project, lang] ++ ["manifest.json"] := rfl
  have hP : FileCacheProvider.getProjectCacheFile cacheDir project lang
      = [cacheDir, project, lang] ++ ["project.json"] := rfl
  have hMP : ([cacheDir, project, lang] ++ ["manifest.json"] : List String)
      ≠ [cacheDir, project, lang] ++ ["project.json"] := append_last_ne _ (by decide)
  have hPtM : ([cacheDir, project, lang] ++ ["project.json"] : List String)
      ≠ [cacheDir, project, lang] ++ ["manifest.json.tmp"] := append_last_ne _ (by decide)
  have hMget : alGet (FileCacheProvider.saveProjectAsync cacheDir fs project lang data now false).1
      [cacheDir, project, lang, "manifest.json"]
      = some (.validJson (.manifestVal
          { project := project, lang := lang, cachedAt := now, expiresAt := none })) := by
    rw [fileSave_eq]
    exact alGet_alSet_self _ _ _
  have hPget : alGet (FileCacheProvider.saveProjectAsync cacheDir fs project lang data now false).1
      [cacheDir, project, lang, "project.json"]
      = some (.validJson (.groupsVal data.groups)) := by
    rw [fileSave_eq]
    show alGet (alSet _ ([cacheDir, project, lang] ++ ["manifest.json"]) _)
        ([cacheDir, project, lang] ++ ["project.json"]) = _
    rw [alGet_alSet_ne _ _ hMP, alGet_alDelete_ne _ hPtM, alGet_alSet_self]
  refine ⟨by rw [hM]; exact hMget, ?_, ?_, ?_, ?_, ?_, ?_, ?_⟩
  · simp [BrowserCacheProvider.saveProjectAsync, hav, hsf]
  · rintro m (h | h) <;> simp [FileCacheProvider.isExpired, h]
  · rintro e (h | h) <;> simp [BrowserCacheProvider.isExpired, h]
  · simp [FileCacheProvider.getProjectAsync, FileCacheProvider.readJsonFile,
      hM, hP, hMget, hPget, castManifest, castGroups, FileCacheProvider.isExpired]
  · simp [FileCacheProvider.isCachedAsync, FileCacheProvider.readJsonFile,
      hM, hP, hMget, hPget, castManifest, FileCacheProvider.isExpired]
  · have hsave : BrowserCacheProvider.saveProjectAsync env project lang data now false
        = ({ env with store :=
                 (alSet env.store (BrowserCacheProvider.getStorageKey project lang)
                   (.validEntry { project := some project, lang := some lang,
                                  data := some data.groups, cachedAt := some now,
                                  expiresAt := none })) }, .ok ()) := by
      simp [BrowserCacheProvider.saveProjectAsync, hav, hsf]
    rw [hsave]
    simp [BrowserCacheProvider.getProjectAsync, hav, alGet_alSet_self,
      truthyStr, hp, hl, BrowserCacheProvider.isExpired]
  · have hsave : BrowserCacheProvider.saveProjectAsync env project lang data now false
        = ({ env with store :=
                 (alSet env.store (BrowserCacheProvider.getStorageKey project lang)
                   (.validEntry { project := some project, lang := some lang,
                                  data := some data.groups, cachedAt := some now,
                                  expiresAt := none })) }, .ok ()) := by
      simp [BrowserCacheProvider.saveProjectAsync, hav, hsf]
    rw [hsave]
    simp [BrowserCacheProvider.isCachedAsync, hav, alGet_alSet_self,
      BrowserCacheProvider.isExpired]

/-- Witness for C10: save `("p", "l")` at time `0` on the empty file and
browser stores; at the far later time `999999999` the file tier still
returns the payload and the browser tier still reports it cached. -/
theorem durable_saves_never_expire_witness :
    FileCacheProvider.getProjectAsync "c"
        (FileCacheProvider.saveProjectAsync "c" [] "p" "l" ⟨[]⟩ 0 false).1
        "p" "l" 999999999 false = .ok (some ⟨[]⟩) ∧
    BrowserCacheProvider.isCachedAsync
        (BrowserCacheProvider.saveProjectAsync
           { available := true, store := [] } "p" "l" ⟨[]⟩ 0 false).1
        "p" "l" 999999999 false
      = ((BrowserCacheProvider.saveProjectAsync
           { available := true, store := [] } "p" "l" ⟨[]⟩ 0 false).1,
         .ok true) :=
  ⟨(durable_saves_never_expire "c" [] { available := true, store := [] }
      "p" "l" ⟨[]⟩ 0 999999999 rfl rfl (by decide) (by decide)).2.2.2.2.1,
   (durable_saves_never_expire "c" [] { available := true, store := [] }
      "p" "l" ⟨[]⟩ 0 999999999 rfl rfl (by decide) (by decide)).2.2.2.2.2.2.2⟩

end ClaimC10

end Translaas

namespace Translaas

section ClaimC4

/-- C4: for every hybrid `getProject` call: an L1 hit (under the composite
key `project:lang`) touches the key's LRU record (refreshing
`lastAccessed` to now) and returns the value, whatever L2 would have
answered; on an L1 miss with an L2 hit the value is promoted —
`promoteToL1` (which evicts if at capacity) runs, after which the L1
cache holds the value and the LRU index holds the key's record — and the
value is returned; on a double miss the call returns `null` with the LRU
index untouched (the model contains no remote API for the hybrid cache to
contact, and the double-miss result is fixed before any caller fetch). -/
theorem hybridGetProject_read_path (st : HybridState)
    (options : HybridCacheOptions) (project lang : String)
    (l2 : Except OfflineCacheError (Option TranslationProject)) (now : Int) :
    (∀ v l1', MemoryCacheProvider.get st.l1
        (HybridCacheProvider.getCacheKey project lang) now = (some v, l1') →
      HybridCacheProvider.getProjectAsync st options project lang l2 now false
        = (⟨l1', alSet st.lru (HybridCacheProvider.getCacheKey project lang)
              ⟨HybridCacheProvider.getCacheKey project lang, now⟩⟩, .ok (some v))) ∧
    (∀ l1' v, MemoryCacheProvider.get st.l1
        (HybridCacheProvider.getCacheKey project lang) now = (none, l1') →
      l2 = .ok (some v) →
      HybridCacheProvider.getProjectAsync st options project lang l2 now false
        = (HybridCacheProvider.promoteToL1 ⟨l1', st.lru⟩ options project lang v now,
           .ok (some v)) ∧
      alGet (HybridCacheProvider.getProjectAsync st options project lang l2 now false).1.lru
          (HybridCacheProvider.getCacheKey project lang)
        = some ⟨HybridCacheProvider.getCacheKey project lang, now⟩ ∧
      (alGet (HybridCacheProvider.getProjectAsync st options project lang l2 now false).1.l1
          (HybridCacheProvider.getCacheKey project lang)).map MemEntry.value
        = some v) ∧
    (∀ l1', MemoryCacheProvider.get st.l1
        (HybridCacheProvider.getCacheKey project lang) now = (none, l1') →
      l2 = .ok none →
      HybridCacheProvider.getProjectAsync st options project lang l2 now false
        = (⟨l1', st.lru⟩, .ok none)) := by
  refine ⟨?_, ?_, ?_⟩
  · intro v l1' hget
    simp [HybridCacheProvider.getProjectAsync, hget, HybridCacheProvider.updateLRU]
  · intro l1' v hget hl2
    have hmain : HybridCacheProvider.getProjectAsync st options project lang l2 now false
        = (HybridCacheProvider.promoteToL1 ⟨l1', st.lru⟩ options project lang v now,
           .ok (some v)) := by
      simp [HybridCacheProvider.getProjectAsync, hget, hl2]
    refine ⟨hmain, ?_, ?_⟩
    · rw [hmain]
      simp [HybridCacheProvider.promoteToL1, HybridCacheProvider.updateLRU,
        alGet_alSet_self]
    · rw [hmain]
      simp [HybridCacheProvider.promoteToL1, MemoryCacheProvider.set,
        alGet_alSet_self]
  · intro l1' hget hl2
    simp [HybridCacheProvider.getProjectAsync, hget, hl2]

/-- Witness for C4: a hit on a one-entry L1 (entry written at time `0`,
no expiration, read at time `7`), and the promote and double-miss cases on
an empty hybrid state. -/
theorem hybridGetProject_read_path_witness :
    HybridCacheProvider.getProjectAsync
        ⟨[(HybridCacheProvider.getCacheKey "p" "l",
           { value := ⟨[]⟩, expiresAt := none, lastAccessed := 0,
             slidingExpirationMs := none })], []⟩
        { enabled := true } "p" "l" (.ok none) 7 false
      = (⟨[(HybridCacheProvider.getCacheKey "p" "l",
            { value := ⟨[]⟩, expiresAt := none, lastAccessed := 7,
              slidingExpirationMs := none })],
          [(HybridCacheProvider.getCacheKey "p" "l",
            ⟨HybridCacheProvider.getCacheKey "p" "l", 7⟩)]⟩, .ok (some ⟨[]⟩)) ∧
    HybridCacheProvider.getProjectAsync (⟨[], []⟩ : HybridState)
        { enabled := true } "p" "l" (.ok (some ⟨[]⟩)) 7 false
      = (HybridCacheProvider.promoteToL1 ⟨[], []⟩ { enabled := true } "p" "l" ⟨[]⟩ 7,
         .ok (some ⟨[]⟩)) ∧
    HybridCacheProvider.getProjectAsync (⟨[], []⟩ : HybridState)
        { enabled := true } "p" "l" (.ok none) 7 false
      = (⟨[], []⟩, .ok none) :=
  ⟨(hybridGetProject_read_path
      ⟨[(HybridCacheProvider.getCacheKey "p" "l",
         { value := ⟨[]⟩, expiresAt := none, lastAccessed := 0,
           slidingExpirationMs := none })], []⟩
      { enabled := true } "p" "l" (.ok none) 7).1 ⟨[]⟩ _ (by decide),
   ((hybridGetProject_read_path (⟨[], []⟩ : HybridState)
      { enabled := true } "p" "l" (.ok (some ⟨[]⟩)) 7).2.1 [] ⟨[]⟩
      (by decide) rfl).1,
   (hybridGetProject_read_path (⟨[], []⟩ : HybridState)
      { enabled := true } "p" "l" (.ok none) 7).2.2 [] (by decide) rfl⟩

end ClaimC4

end Translaas

namespace Translaas

section ClaimC2Lemmas

theorem mem_of_mem_alDelete [DecidableEq κ] {α : Type} {l : AList κ α}
    {k : κ} {p : κ × α} (h : p ∈ alDelete l k) : p ∈ l := by
  induction l with
  | nil => simpa [alDelete] using h
  | cons hd tl ih =>
      by_cases hh : hd.1 = k
      · simp only [alDelete, if_pos hh] at h
        exact List.mem_cons_of_mem _ h
      · simp only [alDelete, if_neg hh, List.mem_cons] at h
        rcases h with h | h
        · exact h ▸ List.mem_cons_self _ _
        · exact List.mem_cons_of_mem _ (ih h)

theorem mem_of_mem_alSet [DecidableEq κ] {α : Type} {l : AList κ α}
    {k : κ} {v : α} {p : κ × α} (h : p ∈ alSet l k v) :
    p = (k, v) ∨ p ∈ l := by
  induction l with
  | nil => simpa [alSet] using h
  | cons hd tl ih =>
      by_cases hh : hd.1 = k
      · simp only [alSet, if_pos hh, List.mem_cons] at h
        rcases h with h | h
        · exact Or.inl h
        · exact Or.inr (List.mem_cons_of_mem _ h)
      · simp only [alSet, if_neg hh, List.mem_cons] at h
        rcases h with h | h
        · exact Or.inr (h ▸ List.mem_cons_self _ _)
        · rcases ih h with h | h
          · exact Or.inl h
          · exact Or.inr (List.mem_cons_of_mem _ h)

theorem mem_alKeys_alSet_iff [DecidableEq κ] {α : Type} {l : AList κ α}
    {k k' : κ} {v : α} :
    k' ∈ alKeys (alSet l k v) ↔ k' ∈ alKeys l ∨ k' = k := by
  by_cases hm : k ∈ alKeys l
  · rw [alKeys_alSet_of_mem v hm]
    constructor
    · exact Or.inl
    · rintro (h | rfl)
      · exact h
      · exact hm
  · rw [alKeys_alSet_of_not_mem v hm]
    simp

theorem insertByAccess_perm (e : LRUEntry) (l : List LRUEntry) :
    (HybridCacheProvider.insertByAccess e l).Perm (e :: l) := by
  induction l with
  | nil => simp [HybridCacheProvider.insertByAccess]
  | cons x xs ih =>
      by_cases h : x.lastAccessed ≤ e.lastAccessed
      · simp only [HybridCacheProvider.insertByAccess, if_pos h]
        exact (ih.cons x).trans (List.Perm.swap e x xs)
      · simp [HybridCacheProvider.insertByAccess, if_neg h]

theorem sortByAccess_perm (l : List LRUEntry) :
    (HybridCacheProvider.sortByAccess l).Perm l := by
  induction l with
  | nil => simp [HybridCacheProvider.sortByAccess]
  | cons x xs ih =>
      exact (insertByAccess_perm x (HybridCacheProvider.sortByAccess xs)).trans
        (ih.cons x)

end ClaimC2Lemmas

end Translaas

namespace Translaas

section ClaimC2Fold

theorem foldDelete_spec (es : List LRUEntry) :
    ∀ st : HybridState,
      (alKeys st.lru).Nodup → (alKeys st.l1).Nodup →
      (∀ p ∈ st.lru, p.2.key = p.1) →
      (∀ k ∈ alKeys st.l1, k ∈ alKeys st.lru) →
      (es.map LRUEntry.key).Nodup →
      (∀ e ∈ es, e.key ∈ alKeys st.lru) →
      (es.foldl HybridCacheProvider.evictStep st).lru.length
          = st.lru.length - es.length ∧
      (alKeys (es.foldl HybridCacheProvider.evictStep st).lru).Nodup ∧
      (alKeys (es.foldl HybridCacheProvider.evictStep st).l1).Nodup ∧
      (∀ p ∈ (es.foldl HybridCacheProvider.evictStep st).lru, p.2.key = p.1) ∧
      (∀ k ∈ alKeys (es.foldl HybridCacheProvider.evictStep st).l1,
          k ∈ alKeys (es.foldl HybridCacheProvider.evictStep st).lru) := by
  induction es with
  | nil =>
      intro st h1 h2 h3 h4 _ _
      exact ⟨by simp, h1, h2, h3, h4⟩
  | cons e es ih =>
      intro st h1 h2 h3 h4 hn hm
      simp only [List.map_cons, List.nodup_cons] at hn
      have hek : e.key ∈ alKeys st.lru := hm e (List.mem_cons_self _ _)
      have h1' : (alKeys (HybridCacheProvider.evictStep st e).lru).Nodup :=
        nodup_alKeys_alDelete _ h1
      have h2' : (alKeys (HybridCacheProvider.evictStep st e).l1).Nodup :=
        nodup_alKeys_alDelete _ h2
      have h3' : ∀ p ∈ (HybridCacheProvider.evictStep st e).lru, p.2.key = p.1 :=
        fun p hp => h3 p (mem_of_mem_alDelete hp)
      have h4' : ∀ k ∈ alKeys (HybridCacheProvider.evictStep st e).l1,
          k ∈ alKeys (HybridCacheProvider.evictStep st e).lru := by
        intro k hk
        have := (mem_alKeys_alDelete_iff h2).mp hk
        exact (mem_alKeys_alDelete_iff h1).mpr ⟨h4 k this.1, this.2⟩
      have hm' : ∀ e' ∈ es, e'.key ∈ alKeys (HybridCacheProvider.evictStep st e).lru := by
        intro e' he'
        refine (mem_alKeys_alDelete_iff h1).mpr ⟨hm e' (List.mem_cons_of_mem _ he'), ?_⟩
        intro hkeq
        exact hn.1 (hkeq ▸ List.mem_map_of_mem LRUEntry.key he')
      have hlen : (HybridCacheProvider.evictStep st e).lru.length = st.lru.length - 1 :=
        length_alDelete_of_mem h1 hek
      obtain ⟨l1, l2, l3, l4, l5⟩ := ih (HybridCacheProvider.evictStep st e)
        h1' h2' h3' h4' hn.2 hm'
      refine ⟨?_, l2, l3, l4, l5⟩
      rw [List.foldl_cons] at *
      rw [l1, hlen, List.length_cons]
      have : 1 ≤ st.lru.length := by
        cases hlru : st.lru with
        | nil => rw [hlru] at hek; simp [alKeys] at hek
        | cons a b => simp [hlru]
      omega

end ClaimC2Fold

end Translaas

namespace Translaas

section ClaimC2Evict

theorem evictLRU_spec (st : HybridState) (maxE : Nat)
    (h1 : (alKeys st.lru).Nodup) (h2 : (alKeys st.l1).Nodup)
    (h3 : ∀ p ∈ st.lru, p.2.key = p.1)
    (h4 : ∀ k ∈ alKeys st.l1, k ∈ alKeys st.lru)
    (hge : maxE ≤ st.lru.length) (hmax : 1 ≤ maxE) :
    (HybridCacheProvider.evictLRU st maxE).lru.length = maxE - 1 ∧
    (alKeys (HybridCacheProvider.evictLRU st maxE).lru).Nodup ∧
    (alKeys (HybridCacheProvider.evictLRU st maxE).l1).Nodup ∧
    (∀ p ∈ (HybridCacheProvider.evictLRU st maxE).lru, p.2.key = p.1) ∧
    (∀ k ∈ alKeys (HybridCacheProvider.evictLRU st maxE).l1,
        k ∈ alKeys (HybridCacheProvider.evictLRU st maxE).lru) := by
  have hnlt : ¬(st.lru.length < maxE) := not_lt.mpr hge
  have hev : HybridCacheProvider.evictLRU st maxE
      = ((HybridCacheProvider.sortByAccess (st.lru.map Prod.snd)).take
          ((HybridCacheProvider.sortByAccess (st.lru.map Prod.snd)).length - maxE + 1)).foldl
          HybridCacheProvider.evictStep st := by
    simp only [HybridCacheProvider.evictLRU, if_neg hnlt]
  rw [hev]
  set sorted := HybridCacheProvider.sortByAccess (st.lru.map Prod.snd) with hsorted
  set es := sorted.take (sorted.length - maxE + 1) with hes
  have hperm : sorted.Perm (st.lru.map Prod.snd) := sortByAccess_perm _
  have hsl : sorted.length = st.lru.length := by
    rw [hperm.length_eq, List.length_map]
  have hkeys : (st.lru.map Prod.snd).map LRUEntry.key = alKeys st.lru :=
    List.map_map LRUEntry.key Prod.snd st.lru ▸
      List.map_congr_left (fun p hp => h3 p hp)
  have hpermk : (sorted.map LRUEntry.key).Perm (alKeys st.lru) := by
    rw [← hkeys]
    exact hperm.map _
  have hndk : (sorted.map LRUEntry.key).Nodup := hpermk.nodup_iff.mpr h1
  have hnes : (es.map LRUEntry.key).Nodup := by
    have hsub : List.Sublist (es.map LRUEntry.key) (sorted.map LRUEntry.key) :=
      (List.take_sublist _ _).map _
    exact hsub.nodup hndk
  have hmemes : ∀ e ∈ es, e.key ∈ alKeys st.lru := by
    intro e he
    have h1m : e ∈ sorted := List.take_subset _ _ he
    have h2m : e ∈ st.lru.map Prod.snd := hperm.subset h1m
    obtain ⟨p, hp, rfl⟩ := List.mem_map.mp h2m
    rw [h3 p hp]
    exact List.mem_map_of_mem Prod.fst hp
  have heslen : es.length = sorted.length - maxE + 1 := by
    have hle : sorted.length - maxE + 1 ≤ sorted.length := by omega
    rw [hes, List.length_take, Nat.min_eq_left hle]
  obtain ⟨f1, f2, f3, f4, f5⟩ := foldDelete_spec es st h1 h2 h3 h4 hnes hmemes
  refine ⟨?_, f2, f3, f4, f5⟩
  rw [f1, heslen]
  omega

end ClaimC2Evict

end Translaas

namespace Translaas

section ClaimC2Steps

theorem memGet_snd_wf {V : Type} (c : MemCache V) (key : String) (now : Int)
    (h : (alKeys c).Nodup) :
    (alKeys (MemoryCacheProvider.get c key now).2).Nodup ∧
    (∀ k ∈ alKeys (MemoryCacheProvider.get c key now).2, k ∈ alKeys c) := by
  unfold MemoryCacheProvider.get
  cases hg : alGet c key with
  | none => exact ⟨h, fun k hk => hk⟩
  | some entry =>
      by_cases he : MemoryCacheProvider.isExpired entry now
      · simp only [he, if_true]
        exact ⟨nodup_alKeys_alDelete _ h,
          fun k hk => ((mem_alKeys_alDelete_iff h).mp hk).1⟩
      · simp only [he, Bool.false_eq_true, if_false]
        have hm : key ∈ alKeys c := mem_alKeys_iff_alGet.mpr (by rw [hg]; rfl)
        rw [alKeys_alSet_of_mem _ hm]
        exact ⟨h, fun k hk => hk⟩

theorem memGet_some_mem {V : Type} {c : MemCache V} {key : String} {now : Int}
    {v : V} {c' : MemCache V}
    (h : MemoryCacheProvider.get c key now = (some v, c')) :
    key ∈ alKeys c := by
  unfold MemoryCacheProvider.get at h
  cases hg : alGet c key with
  | none => rw [hg] at h; simp at h
  | some entry => exact mem_alKeys_iff_alGet.mpr (by rw [hg]; rfl)

theorem promoteToL1_wf (st : HybridState) (options : HybridCacheOptions)
    (project lang : String) (data : TranslationProject) (now : Int)
    (hwf : HybridWF st (HybridCacheProvider.maxEntriesOf options))
    (hmax : 1 ≤ HybridCacheProvider.maxEntriesOf options) :
    HybridWF (HybridCacheProvider.promoteToL1 st options project lang data now)
      (HybridCacheProvider.maxEntriesOf options) := by
  obtain ⟨h1, h2, h3, h4, h5⟩ := hwf
  unfold HybridCacheProvider.promoteToL1
  by_cases hc : st.lru.length ≥ HybridCacheProvider.maxEntriesOf options
  · obtain ⟨e1, e2, e3, e4, e5⟩ := evictLRU_spec st
      (HybridCacheProvider.maxEntriesOf options) h1 h2 h3 h4 hc hmax
    simp only [if_pos hc, HybridCacheProvider.updateLRU, MemoryCacheProvider.set]
    refine ⟨nodup_alKeys_alSet _ _ e2, nodup_alKeys_alSet _ _ e3, ?_, ?_, ?_⟩
    · intro p hp
      rcases mem_of_mem_alSet hp with hp | hp
      · rw [hp]
      · exact e4 p hp
    · intro k hk
      rcases mem_alKeys_alSet_iff.mp hk with hk | hk
      · exact mem_alKeys_alSet_iff.mpr (Or.inl (e5 k hk))
      · exact mem_alKeys_alSet_iff.mpr (Or.inr hk)
    · calc (alSet (HybridCacheProvider.evictLRU st
            (HybridCacheProvider.maxEntriesOf options)).lru
            (HybridCacheProvider.getCacheKey project lang)
            ⟨HybridCacheProvider.getCacheKey project lang, now⟩).length
          ≤ (HybridCacheProvider.evictLRU st
              (HybridCacheProvider.maxEntriesOf options)).lru.length + 1 :=
            length_alSet_le _ _ _
        _ ≤ HybridCacheProvider.maxEntriesOf options := by rw [e1]; omega
  · simp only [if_neg hc, HybridCacheProvider.updateLRU, MemoryCacheProvider.set]
    refine ⟨nodup_alKeys_alSet _ _ h1, nodup_alKeys_alSet _ _ h2, ?_, ?_, ?_⟩
    · intro p hp
      rcases mem_of_mem_alSet hp with hp | hp
      · rw [hp]
      · exact h3 p hp
    · intro k hk
      rcases mem_alKeys_alSet_iff.mp hk with hk | hk
      · exact mem_alKeys_alSet_iff.mpr (Or.inl (h4 k hk))
      · exact mem_alKeys_alSet_iff.mpr (Or.inr hk)
    · have hlt : st.lru.length < HybridCacheProvider.maxEntriesOf options :=
        lt_of_not_ge hc
      calc (alSet st.lru (HybridCacheProvider.getCacheKey project lang)
            ⟨HybridCacheProvider.getCacheKey project lang, now⟩).length
          ≤ st.lru.length + 1 := length_alSet_le _ _ _
        _ ≤ HybridCacheProvider.maxEntriesOf options := by omega

end ClaimC2Steps

end Translaas

namespace Translaas

section ClaimC2Ops

theorem hybridGet_state_wf (st : HybridState) (options : HybridCacheOptions)
    (project lang : String)
    (l2 : Except OfflineCacheError (Option TranslationProject))
    (now : Int) (aborted : Bool)
    (hwf : HybridWF st (HybridCacheProvider.maxEntriesOf options))
    (hmax : 1 ≤ HybridCacheProvider.maxEntriesOf options) :
    HybridWF (HybridCacheProvider.getProjectAsync st options project lang l2 now aborted).1
      (HybridCacheProvider.maxEntriesOf options) := by
  obtain ⟨h1, h2, h3, h4, h5⟩ := hwf
  unfold HybridCacheProvider.getProjectAsync
  cases aborted with
  | true => exact ⟨h1, h2, h3, h4, h5⟩
  | false =>
      simp only [Bool.false_eq_true, if_false]
      obtain ⟨hg1, hg2⟩ := memGet_snd_wf st.l1
        (HybridCacheProvider.getCacheKey project lang) now h2
      cases hget : MemoryCacheProvider.get st.l1
          (HybridCacheProvider.getCacheKey project lang) now with
      | mk r l1' =>
        rw [hget] at hg1 hg2
        cases r with
        | some v =>
            simp only [hget, HybridCacheProvider.updateLRU]
            have hkey : HybridCacheProvider.getCacheKey project lang ∈ alKeys st.lru :=
              h4 _ (memGet_some_mem hget)
            refine ⟨nodup_alKeys_alSet _ _ h1, hg1, ?_, ?_, ?_⟩
            · intro p hp
              rcases mem_of_mem_alSet hp with hp | hp
              · rw [hp]
              · exact h3 p hp
            · intro k hk
              exact mem_alKeys_alSet_iff.mpr (Or.inl (h4 k (hg2 k hk)))
            · rw [length_alSet_of_mem _ hkey]
              exact h5
        | none =>
            have hwf' : HybridWF ⟨l1', st.lru⟩
                (HybridCacheProvider.maxEntriesOf options) :=
              ⟨h1, hg1, h3, fun k hk => h4 k (hg2 k hk), h5⟩
            cases l2 with
            | error e => simpa only [hget] using hwf'
            | ok o =>
                cases o with
                | none => simpa only [hget] using hwf'
                | some v =>
                    simp only [hget]
                    exact promoteToL1_wf _ options project lang v now hwf' hmax

theorem hybridGetGroup_state_eq (st : HybridState) (options : HybridCacheOptions)
    (project group lang : String)
    (l2 : Except OfflineCacheError (Option TranslationProject))
    (now : Int) (aborted : Bool) :
    (HybridCacheProvider.getGroupAsync st options project group lang l2 now aborted).1
      = (HybridCacheProvider.getProjectAsync st options project lang l2 now aborted).1 := by
  unfold HybridCacheProvider.getGroupAsync
  cases hres : HybridCacheProvider.getProjectAsync st options project lang l2 now aborted with
  | mk st' r =>
      cases r with
      | error e => rfl
      | ok o => cases o <;> rfl

theorem hybridSave_ok_eq_promote (st : HybridState) (options : HybridCacheOptions)
    (project lang : String) (data : TranslationProject) (now : Int) :
    HybridCacheProvider.saveProjectAsync st options project lang data (.ok ()) now false
      = (HybridCacheProvider.promoteToL1 st options project lang data now, .ok ()) :=
  rfl

theorem hybridSave_state_wf (st : HybridState) (options : HybridCacheOptions)
    (project lang : String) (data : TranslationProject)
    (l2 : Except OfflineCacheError Unit) (now : Int) (aborted : Bool)
    (hwf : HybridWF st (HybridCacheProvider.maxEntriesOf options))
    (hmax : 1 ≤ HybridCacheProvider.maxEntriesOf options) :
    HybridWF (HybridCacheProvider.saveProjectAsync st options project lang data l2 now aborted).1
      (HybridCacheProvider.maxEntriesOf options) := by
  cases aborted with
  | true => exact hwf
  | false =>
      cases l2 with
      | error e => exact hwf
      | ok u =>
          cases u
          rw [hybridSave_ok_eq_promote]
          exact promoteToL1_wf _ options project lang data now hwf hmax

theorem hybridIsCached_state_wf (st : HybridState) (project lang : String)
    (l2 : Except OfflineCacheError Bool) (now : Int) (aborted : Bool)
    (maxE : Nat) (hwf : HybridWF st maxE) :
    HybridWF (HybridCacheProvider.isCachedAsync st project lang l2 now aborted).1 maxE := by
  obtain ⟨h1, h2, h3, h4, h5⟩ := hwf
  unfold HybridCacheProvider.isCachedAsync
  cases aborted with
  | true => exact ⟨h1, h2, h3, h4, h5⟩
  | false =>
      simp only [Bool.false_eq_true, if_false]
      obtain ⟨hg1, hg2⟩ := memGet_snd_wf st.l1
        (HybridCacheProvider.getCacheKey project lang) now h2
      cases hget : MemoryCacheProvider.get st.l1
          (HybridCacheProvider.getCacheKey project lang) now with
      | mk r l1' =>
        rw [hget] at hg1 hg2
        have hwf' : HybridWF ⟨l1', st.lru⟩ maxE :=
          ⟨h1, hg1, h3, fun k hk => h4 k (hg2 k hk), h5⟩
        cases r with
        | some v => simpa only [hget] using hwf'
        | none => simpa only [hget] using hwf'

theorem hybridWarmup_state_wf (st : HybridState) (options : HybridCacheOptions)
    (items : List WarmupItem) (aborted : Bool)
    (hwf : HybridWF st (HybridCacheProvider.maxEntriesOf options))
    (hmax : 1 ≤ HybridCacheProvider.maxEntriesOf options) :
    HybridWF (HybridCacheProvider.warmupAsync st options items aborted).1
      (HybridCacheProvider.maxEntriesOf options) := by
  cases aborted with
  | true => exact hwf
  | false =>
      unfold HybridCacheProvider.warmupAsync
      simp only [Bool.false_eq_true, if_false]
      induction items generalizing st with
      | nil => exact hwf
      | cons it items ih =>
          rw [List.foldl_cons]
          cases hres : it.l2Result with
          | error e => exact ih st hwf
          | ok o =>
              cases o with
              | none => exact ih st hwf
              | some v =>
                  exact ih _ (promoteToL1_wf st options it.project it.lang v
                    it.time hwf hmax)

theorem applyOp_wf (options : HybridCacheOptions) (st : HybridState)
    (op : HybridCacheProvider.Op)
    (hwf : HybridWF st (HybridCacheProvider.maxEntriesOf options))
    (hmax : 1 ≤ HybridCacheProvider.maxEntriesOf options) :
    HybridWF (HybridCacheProvider.applyOp options st op)
      (HybridCacheProvider.maxEntriesOf options) := by
  cases op with
  | getProject project lang l2 now aborted =>
      exact hybridGet_state_wf st options project lang l2 now aborted hwf hmax
  | getGroup project group lang l2 now aborted =>
      show HybridWF (HybridCacheProvider.getGroupAsync
        st options project group lang l2 now aborted).1 _
      rw [hybridGetGroup_state_eq]
      exact hybridGet_state_wf st options project lang l2 now aborted hwf hmax
  | saveProject project lang data l2 now aborted =>
      exact hybridSave_state_wf st options project lang data l2 now aborted hwf hmax
  | isCached project lang l2 now aborted =>
      exact hybridIsCached_state_wf st project lang l2 now aborted _ hwf
  | clearAll l2 aborted =>
      cases aborted with
      | true => exact hwf
      | false =>
          cases l2 with
          | error e =>
              show HybridWF (⟨[], []⟩ : HybridState) _
              exact ⟨List.nodup_nil, List.nodup_nil, by simp, by simp [alKeys],
                Nat.zero_le _⟩
          | ok u =>
              cases u
              show HybridWF (⟨[], []⟩ : HybridState) _
              exact ⟨List.nodup_nil, List.nodup_nil, by simp, by simp [alKeys],
                Nat.zero_le _⟩
  | warmup items aborted =>
      exact hybridWarmup_state_wf st options items aborted hwf hmax

theorem runOps_wf (options : HybridCacheOptions)
    (hmax : 1 ≤ HybridCacheProvider.maxEntriesOf options)
    (ops : List HybridCacheProvider.Op) :
    HybridWF (HybridCacheProvider.runOps options ops)
      (HybridCacheProvider.maxEntriesOf options) := by
  have hinit : HybridWF HybridCacheProvider.initialState
      (HybridCacheProvider.maxEntriesOf options) :=
    ⟨List.nodup_nil, List.nodup_nil, by simp [HybridCacheProvider.initialState],
      by simp [HybridCacheProvider.initialState, alKeys], Nat.zero_le _⟩
  have hgen : ∀ (l : List HybridCacheProvider.Op) (st : HybridState),
      HybridWF st (HybridCacheProvider.maxEntriesOf options) →
      HybridWF (l.foldl (HybridCacheProvider.applyOp options) st)
        (HybridCacheProvider.maxEntriesOf options) := by
    intro l
    induction l with
    | nil => intro st h; exact h
    | cons op l ih =>
        intro st h
        rw [List.foldl_cons]
        exact ih _ (applyOp_wf options st op h hmax)
  exact hgen ops _ hinit

end ClaimC2Ops

end Translaas

namespace Translaas

section ClaimC2Main

/-- C2 counterexample: with `maxMemoryCacheEntries = 0` a single
`saveProject` drives the tracked L1 population to `1 > maxEntries = 0`
(and `maxEntries - 1` is not even attainable), so the invariant does not
hold for every configuration. `evictLRU` runs *before* the insert but can
only bring the population to `maxEntries - 1` when `maxEntries ≥ 1`. -/
theorem hybrid_l1_bound_violated_at_zero :
    HybridCacheProvider.maxEntriesOf
        { enabled := true, maxMemoryCacheEntries := some 0 } = 0 ∧
    (HybridCacheProvider.runOps
        { enabled := true, maxMemoryCacheEntries := some 0 }
        [.saveProject "p" "l" ⟨[]⟩ (.ok ()) 0 false]).lru.length = 1 := by
  refine ⟨rfl, by decide⟩

/-- C2 (amended: for every configuration with `maxEntries ≥ 1`, which
includes the default of 1000): across every sequence of public hybrid
operations from a fresh provider, the tracked L1 population (the LRU
index, and the L1 memory cache itself) never exceeds `maxEntries`;
whenever an insert finds the index at (or, hypothetically, beyond)
capacity, `evictLRU` first removes the oldest-`lastAccessed` entries
bringing the population to exactly `maxEntries - 1` before the insert,
and `evictLRU` does nothing when the population is below `maxEntries` —
eviction never happens after the bound is exceeded because the bound is
never exceeded. -/
theorem hybrid_l1_population_bounded (options : HybridCacheOptions)
    (hmax : 1 ≤ HybridCacheProvider.maxEntriesOf options)
    (ops : List HybridCacheProvider.Op) :
    (HybridCacheProvider.runOps options ops).lru.length
      ≤ HybridCacheProvider.maxEntriesOf options ∧
    (HybridCacheProvider.runOps options ops).l1.length
      ≤ HybridCacheProvider.maxEntriesOf options ∧
    (∀ st : HybridState,
      HybridWF st (HybridCacheProvider.maxEntriesOf options) →
      HybridCacheProvider.maxEntriesOf options ≤ st.lru.length →
      (HybridCacheProvider.evictLRU st
          (HybridCacheProvider.maxEntriesOf options)).lru.length
        = HybridCacheProvider.maxEntriesOf options - 1) ∧
    (∀ st : HybridState,
      st.lru.length < HybridCacheProvider.maxEntriesOf options →
      HybridCacheProvider.evictLRU st (HybridCacheProvider.maxEntriesOf options) = st) := by
  obtain ⟨h1, h2, h3, h4, h5⟩ := runOps_wf options hmax ops
  refine ⟨h5, ?_, ?_, ?_⟩
  · have hsub : alKeys (HybridCacheProvider.runOps options ops).l1
        ⊆ alKeys (HybridCacheProvider.runOps options ops).lru := h4
    have hlen := (List.subperm_of_subset h2 hsub).length_le
    have e1 : (alKeys (HybridCacheProvider.runOps options ops).l1).length
        = (HybridCacheProvider.runOps options ops).l1.length := List.length_map _ _
    have e2 : (alKeys (HybridCacheProvider.runOps options ops).lru).length
        = (HybridCacheProvider.runOps options ops).lru.length := List.length_map _ _
    omega
  · intro st hwf hge
    obtain ⟨w1, w2, w3, w4, w5⟩ := hwf
    exact (evictLRU_spec st _ w1 w2 w3 w4 hge hmax).1
  · intro st hlt
    unfold HybridCacheProvider.evictLRU
    rw [if_pos hlt]

/-- Witness for the amended C2 theorem: with `maxEntries = 2`, after
three saves under distinct keys the tracked population is still `2`. -/
theorem hybrid_l1_population_bounded_witness :
    (1 : Nat) ≤ HybridCacheProvider.maxEntriesOf
        { enabled := true, maxMemoryCacheEntries := some 2 } ∧
    (HybridCacheProvider.runOps
        { enabled := true, maxMemoryCacheEntries := some 2 }
        [.saveProject "a" "l" ⟨[]⟩ (.ok ()) 0 false,
         .saveProject "b" "l" ⟨[]⟩ (.ok ()) 1 false,
         .saveProject "c" "l" ⟨[]⟩ (.ok ()) 2 false]).lru.length ≤ 2 :=
  ⟨by decide,
   (hybrid_l1_population_bounded
      { enabled := true, maxMemoryCacheEntries := some 2 } (by decide)
      [.saveProject "a" "l" ⟨[]⟩ (.ok ()) 0 false,
       .saveProject "b" "l" ⟨[]⟩ (.ok ()) 1 false,
       .saveProject "c" "l" ⟨[]⟩ (.ok ()) 2 false]).1⟩

end ClaimC2Main

end Translaas
